import Mathlib

/-!
Verification of the core of the Web_Scraper repository against its
natural-language specification.

The Python sources under backend/ are shallowly embedded as executable Lean
definitions:

* strings are modelled as `List Char` (`Str`);
* the BeautifulSoup / lxml query capability, the `urllib.parse.urljoin`
  resolver, the `urlparse` domain extractor, the regex matcher of the page
  detector and the network transports are external collaborators (spec
  section 1 and section 6) and enter the model as explicit function
  parameters;
* Python float arithmetic of the rate limiter and the detector is modelled
  exactly over `ℚ` (all constants involved, 0.5, 0.3, 0.95, are dyadic and
  the claims are about the defining formulas);
* the md5 content digest of the deduplicator is modelled by the digested
  content itself (the sorted key/value list), i.e. md5 is treated as
  injective.
-/

namespace WebScraper

/-- Strings of the embedded program: Python `str` as a list of characters. -/
abbrev Str := List Char

/-- Shorthand turning a Lean string literal into the model type. -/
def str (s : String) : Str := s.toList

/-- The characters matched by Python `\s` (ASCII core) and stripped by
`str.strip()`: space, tab, newline, carriage return, vertical tab, form
feed. -/
def pyIsSpace (c : Char) : Bool :=
  c = ' ' || c = '\t' || c = '\n' || c = '\r' || c = '\x0B' || c = '\x0C'

/-- The zero width characters removed by `DataNormalizer._clean_text`:
U+200B, U+200C, U+200D, U+FEFF. -/
def isZeroWidth (c : Char) : Bool :=
  c.val = 0x200B || c.val = 0x200C || c.val = 0x200D || c.val = 0xFEFF

/-- Python `str.strip()`: drop whitespace from both ends. -/
def strip (s : Str) : Str :=
  ((s.dropWhile pyIsSpace).reverse.dropWhile pyIsSpace).reverse

/-- Run-collapsing scan: `prevWs` records whether the previous character
was whitespace (already emitted as one space). -/
def collapseAux (prevWs : Bool) : Str → Str
  | [] => []
  | c :: cs =>
    if pyIsSpace c then
      if prevWs then collapseAux true cs else ' ' :: collapseAux true cs
    else c :: collapseAux false cs

/-- Python `re.sub(r"\s+", " ", s)`: collapse every whitespace run to a
single space. -/
def collapse (s : Str) : Str := collapseAux false s

/-- Python `re.sub` deleting the four zero width characters. -/
def removeZeroWidth (s : Str) : Str := s.filter (fun c => !isZeroWidth c)

/-- The scan of `s.replace(old, new)` (non-empty `old`): at every position,
replace an occurrence of `old` and jump past it, otherwise keep the
character.  The fuel, at least the length of the remaining input, makes the
recursion structural. -/
def replaceAllFuel (pat rep : Str) : ℕ → Str → Str
  | _, [] => []
  | 0, s => s
  | fuel + 1, c :: cs =>
    if pat ≠ [] ∧ pat.isPrefixOf (c :: cs) then
      rep ++ replaceAllFuel pat rep fuel ((c :: cs).drop pat.length)
    else c :: replaceAllFuel pat rep fuel cs

/-- Python `s.replace(old, new)` for a non-empty `old`: scan left to right,
replacing non-overlapping occurrences. -/
def replaceAll (pat rep : Str) (s : Str) : Str :=
  replaceAllFuel pat rep s.length s

/-- The boolean prefix test agrees with the prefix relation (bridge to the
library lemma). -/
theorem isPrefixOf_eq_true (l1 l2 : Str) : l1.isPrefixOf l2 = true ↔ l1 <+: l2 :=
  List.isPrefixOf_iff_prefix

/-! ## Data model (backend/models.py) -/

/-- A record value: Python `None`, `str` or `list` as produced by extraction
and consumed by the normalizer. -/
inductive Val where
  | vnull : Val
  | vstr : Str → Val
  | vlist : List Val → Val

mutual

/-- Decidable equality for `Val` (the nested list keeps the derive handler
from producing it). -/
def Val.decEq : (a b : Val) → Decidable (a = b)
  | .vnull, .vnull => .isTrue rfl
  | .vnull, .vstr _ => .isFalse (fun h => Val.noConfusion h)
  | .vnull, .vlist _ => .isFalse (fun h => Val.noConfusion h)
  | .vstr _, .vnull => .isFalse (fun h => Val.noConfusion h)
  | .vstr s, .vstr t =>
    if h : s = t then .isTrue (by rw [h])
    else .isFalse (fun he => h (Val.vstr.inj he))
  | .vstr _, .vlist _ => .isFalse (fun h => Val.noConfusion h)
  | .vlist _, .vnull => .isFalse (fun h => Val.noConfusion h)
  | .vlist _, .vstr _ => .isFalse (fun h => Val.noConfusion h)
  | .vlist l, .vlist m =>
    match Val.decEqList l m with
    | .isTrue h => .isTrue (by rw [h])
    | .isFalse h => .isFalse (fun he => h (Val.vlist.inj he))

/-- Decidable equality for lists of `Val`. -/
def Val.decEqList : (l m : List Val) → Decidable (l = m)
  | [], [] => .isTrue rfl
  | [], _ :: _ => .isFalse (fun h => List.noConfusion h)
  | _ :: _, [] => .isFalse (fun h => List.noConfusion h)
  | a :: as, b :: bs =>
    match Val.decEq a b, Val.decEqList as bs with
    | .isTrue h1, .isTrue h2 => .isTrue (by rw [h1, h2])
    | .isFalse h1, _ => .isFalse (fun he => h1 (List.cons.inj he).1)
    | .isTrue _, .isFalse h2 => .isFalse (fun he => h2 (List.cons.inj he).2)

end

instance : DecidableEq Val := Val.decEq

/-- A record: the ordered field-name to value mapping of a Python dict. -/
abbrev Record := List (Str × Val)

/-- Source `SelectorType` of models.py. -/
inductive SelectorType where
  | css
  | xpath
deriving DecidableEq, Repr

/-- Source `ScraperType` of models.py. -/
inductive ScraperType where
  | auto
  | static
  | dynamic
deriving DecidableEq, Repr

/-- Source `ExtractionField` of models.py (`attr` embeds the source field named
like the Lean keyword for attributes). -/
structure ExtractionField where
  name : Str
  selector : Str
  selectorType : SelectorType := .css
  attr : Option Str := none
  multiple : Bool := false
  default : Option Str := none
deriving DecidableEq, Repr

/-- Source `PaginationConfig` of models.py; `max_pages` is a Python int with no
lower-bound validator, hence `ℤ`. -/
structure PaginationConfig where
  enabled : Bool := false
  nextPageSelector : Option Str := none
  maxPages : ℤ := 5
deriving DecidableEq, Repr

/-- Source `ScrapeRequest` of models.py (the fields the engine reads). -/
structure ScrapeRequest where
  url : Str
  scraperType : ScraperType := .auto
  fields : List ExtractionField
  containerSelector : Option Str := none
  pagination : Option PaginationConfig := none
  waitForSelector : Option Str := none
  timeout : ℤ := 30

/-! ## Extractor (backend/scrapers/base_scraper.py)

The HTML query capability (BeautifulSoup select / lxml xpath) is an external
collaborator; it enters the model as a structure of functions over an
abstract element type `E`.  `selectOne` is the first hit of `select`. -/

/-- A node returned by an lxml xpath query: either a string result or an
element. -/
inductive XNode (E : Type) where
  | xstr : Str → XNode E
  | xelem : E → XNode E

/-- Query capability over an abstract document/element type `E`. -/
structure Qe (E : Type) where
  selectAll : E → Str → List E
  getAttr : E → Str → Option Str
  getText : E → Str
  xpathAll : E → Str → List (XNode E)

/-- Source `BaseScraper._clean_text`: collapse whitespace, strip, and return
`None` for an empty result. -/
def cleanExtract (s : Str) : Option Str :=
  let t := collapse (strip s)
  if t = [] then none else some t

/-- Source `BaseScraper._get_element_value`: an attribute lookup when a non-empty
attribute name is given (Python truthiness), otherwise cleaned text. -/
def getElementValue {E : Type} (qe : Qe E) (el : E) (a? : Option Str) :
    Option Str :=
  match a? with
  | some a => if a = [] then cleanExtract (qe.getText el) else qe.getAttr el a
  | none => cleanExtract (qe.getText el)

/-- Lift an optional string to a record value. -/
def optVal : Option Str → Val
  | none => .vnull
  | some s => .vstr s

/-- Source `BaseScraper._extract_css`.  The `Val.vnull` result stands for the
Python `None` that the caller replaces by the field default. -/
def extractCss {E : Type} (qe : Qe E) (el : E) (f : ExtractionField) : Val :=
  if f.multiple then
    .vlist ((qe.selectAll el f.selector).map
      (fun e => optVal (getElementValue qe e f.attr)))
  else
    match (qe.selectAll el f.selector).head? with
    | none => .vnull
    | some e => optVal (getElementValue qe e f.attr)

/-- Source `BaseScraper._get_xpath_value`. -/
def getXpathValue {E : Type} (qe : Qe E) (a? : Option Str) :
    XNode E → Option Str
  | .xstr s => cleanExtract s
  | .xelem e =>
    match a? with
    | some a => if a = [] then cleanExtract (qe.getText e) else qe.getAttr e a
    | none => cleanExtract (qe.getText e)

/-- Source `BaseScraper._extract_xpath`. -/
def extractXpath {E : Type} (qe : Qe E) (el : E) (f : ExtractionField) : Val :=
  match qe.xpathAll el f.selector with
  | [] => if f.multiple then .vlist [] else .vnull
  | n :: ns =>
    if f.multiple then
      .vlist ((n :: ns).map (fun x => optVal (getXpathValue qe f.attr x)))
    else optVal (getXpathValue qe f.attr n)

/-- Python dict assignment `result[k] = v`: replace in place or append. -/
def dictInsert (k : Str) (v : Val) : Record → Record
  | [] => [(k, v)]
  | (k₁, v₁) :: r => if k₁ = k then (k, v) :: r else (k₁, v₁) :: dictInsert k v r

/-- Source `BaseScraper._extract_fields_from_element`: evaluate every field against
one element; a `None` value is replaced by the field default.  (The Python
per-field try/except cannot fire in the model: the query capability is
total.) -/
def extractFieldsFromElement {E : Type} (qe : Qe E)
    (fields : List ExtractionField) (el : E) : Record :=
  fields.foldl
    (fun acc f =>
      let raw :=
        match f.selectorType with
        | .css => extractCss qe el f
        | .xpath => extractXpath qe el f
      let v := if raw = .vnull then optVal f.default else raw
      dictInsert f.name v acc)
    []

/-- Source `BaseScraper.extract_data`: with a (truthy) container selector, one
record per container, dropping records whose every value is `None`;
otherwise a single whole-document record, never filtered. -/
def extract_data {E : Type} (qe : Qe E) (fields : List ExtractionField)
    (containerSelector : Option Str) (doc : E) : List Record :=
  match containerSelector with
  | some cs =>
    if cs = [] then [extractFieldsFromElement qe fields doc]
    else
      ((qe.selectAll doc cs).map (extractFieldsFromElement qe fields)).filter
        (fun r => r.any (fun kv => decide (kv.2 ≠ Val.vnull)))
  | none => [extractFieldsFromElement qe fields doc]

/-! ## Normalizer (backend/utils/data_normalizer.py)

`urljoin` is an external collaborator and enters as the parameter `join`.
Note on `_clean_text` of the normalizer: in the repository source the two
`replace` calls on line 108 replace a straight double quote by itself (the
intended curly quotes were lost in the file encoding), and line 109 parses
as a single `replace` whose pattern is the fifteen characters between the
two triple-quote delimiters.  The embedding reproduces exactly that. -/

/-- The apostrophe character. -/
def apos : Char := Char.ofNat 39

/-- The straight double quote character. -/
def dquote : Char := '"'

/-- The literal pattern replaced by an apostrophe on line 109 of
data_normalizer.py: comma, space, double quote, apostrophe, double quote,
closing parenthesis, dot, the letters of `replace`, opening parenthesis. -/
def needle : Str :=
  [',', ' ', dquote, apos, dquote, ')', '.', 'r', 'e', 'p', 'l', 'a', 'c', 'e', '(']

/-- Source `DataNormalizer._clean_text`. -/
def cleanNorm (s : Str) : Str :=
  if s = [] then []
  else
    let t1 := collapse (strip s)
    let t2 := removeZeroWidth t1
    let t3 := replaceAll [dquote] [dquote] (replaceAll [dquote] [dquote] t2)
    replaceAll needle [apos] t3

/-- The URL indicating substrings of `_is_url_field`, in source order. -/
def urlIndicators : List Str :=
  [str "url", str "link", str "href", str "src", str "image", str "img",
   str "photo"]

/-- The price indicating substrings of `_is_price_field`, in source order. -/
def priceIndicators : List Str :=
  [str "price", str "cost", str "amount", str "fee", str "rate"]

/-- Python substring containment `pat in s`. -/
def containsSub (pat : Str) : Str → Bool
  | [] => pat.isEmpty
  | c :: cs => pat.isPrefixOf (c :: cs) || containsSub pat cs

/-- Source `DataNormalizer._is_url_field`. -/
def isUrlField (key : Str) : Bool :=
  urlIndicators.any (fun i => containsSub i (key.map Char.toLower))

/-- Source `DataNormalizer._is_price_field`. -/
def isPriceField (key : Str) : Bool :=
  priceIndicators.any (fun i => containsSub i (key.map Char.toLower))

/-- Source `DataNormalizer._resolve_url`: keep empty, absolute, `data:` and
`javascript:` values, else join against a truthy base URL. -/
def resolveUrl (join : Str → Str → Str) (base : Option Str) (url : Str) : Str :=
  if url = [] || (str "http://").isPrefixOf url || (str "https://").isPrefixOf url
      || (str "data:").isPrefixOf url || (str "javascript:").isPrefixOf url then
    url
  else
    match base with
    | some b => if b = [] then url else join b url
    | none => url

/-- Source `DataNormalizer._normalize_price`: strip every whitespace character. -/
def normalizePrice (p : Str) : Str := p.filter (fun c => !pyIsSpace c)

mutual

/-- Source `DataNormalizer._normalize_value`. -/
def normalizeValue (join : Str → Str → Str) (base : Option Str) (key : Str) :
    Val → Val
  | .vnull => .vnull
  | .vlist l => .vlist (normalizeValueList join base key l)
  | .vstr s =>
    let v1 := cleanNorm s
    let v2 := if isUrlField key && !v1.isEmpty then resolveUrl join base v1 else v1
    let v3 := if isPriceField key && !v2.isEmpty then normalizePrice v2 else v2
    .vstr v3

/-- The list comprehension inside `_normalize_value`: drop `None` entries,
normalize the rest. -/
def normalizeValueList (join : Str → Str → Str) (base : Option Str) (key : Str) :
    List Val → List Val
  | [] => []
  | v :: r =>
    if v = .vnull then normalizeValueList join base key r
    else normalizeValue join base key v :: normalizeValueList join base key r

end

/-- The per-value content test of `_normalize_item`: not `None`, not the
empty string, and for lists non-empty. -/
def hasSignal : Val → Bool
  | .vnull => false
  | .vstr s => !s.isEmpty
  | .vlist l => !l.isEmpty

/-- Source `DataNormalizer._normalize_item`: normalize every value, return `None`
when no value carries content. -/
def normalizeItem (join : Str → Str → Str) (base : Option Str)
    (item : Record) : Option Record :=
  let result := item.foldl
    (fun acc kv => dictInsert kv.1 (normalizeValue join base kv.1 kv.2) acc) []
  if item.any (fun kv => hasSignal (normalizeValue join base kv.1 kv.2)) then
    some result
  else none

/-- Lexicographic strict order on model strings, as Python compares `str`. -/
def strLt : Str → Str → Bool
  | [], [] => false
  | [], _ :: _ => true
  | _ :: _, [] => false
  | a :: as, b :: bs => if a = b then strLt as bs else decide (a < b)

/-- Insertion into a key-sorted record. -/
def insertSorted (p : Str × Val) : Record → Record
  | [] => [p]
  | q :: r => if strLt p.1 q.1 then p :: q :: r else q :: insertSorted p r

/-- Source `sorted(item.items())` (keys are unique in a Python dict, so the key
order decides). -/
def sortByKey (r : Record) : Record := r.foldr insertSorted []

/-- Source `DataNormalizer._hash_item`: the md5 digest of the sorted key/value
content, modelled by the content itself. -/
def hashItem (r : Record) : Record := sortByKey r

/-- The loop of `_remove_duplicates` with its `seen` set. -/
def removeDuplicatesGo : List Record → List Record → List Record
  | _, [] => []
  | seen, item :: rest =>
    let h := hashItem item
    if h ∈ seen then removeDuplicatesGo seen rest
    else item :: removeDuplicatesGo (h :: seen) rest

/-- Source `DataNormalizer._remove_duplicates`. -/
def remove_duplicates (data : List Record) : List Record :=
  removeDuplicatesGo [] data

/-- Source `DataNormalizer.normalize`. -/
def normalize (join : Str → Str → Str) (base : Option Str) (dedupe : Bool)
    (data : List Record) : List Record :=
  let normalized := data.filterMap (normalizeItem join base)
  if dedupe then remove_duplicates normalized else normalized

/-! ## Rate limiter (backend/utils/rate_limiter.py)

Wall-clock instants are explicit `ℚ` parameters; `urlparse(...).netloc` is
the external parameter `dom`. -/

/-- The constructor parameters of `RateLimiter`. -/
structure RateLimiterConfig where
  minDelay : ℚ := 1
  maxDelay : ℚ := 10
  requestsBeforeIncrease : ℕ := 10
  blockCooldown : ℚ := 60

/-- Source `DomainState` of rate_limiter.py. -/
structure DomainState where
  lastRequestTime : ℚ := 0
  requestCount : ℕ := 0
  blocked : Bool := false
  blockedUntil : ℚ := 0
deriving DecidableEq

/-- The per-domain state map `_domain_states`. -/
abbrev RLState := List (Str × DomainState)

/-- Lookup with the default fresh state (`_get_state` creates one on first
access). -/
def getState : RLState → Str → DomainState
  | [], _ => {}
  | (k, s) :: r, d => if k = d then s else getState r d

/-- Store a domain state (dict assignment). -/
def setState : RLState → Str → DomainState → RLState
  | [], d, s => [(d, s)]
  | (k, s₀) :: r, d, s => if k = d then (d, s) :: r else (k, s₀) :: setState r d s

/-- Lines 80 to 85 of `wait_for_slot`: the effective delay as a function of
the request count.  (Python `//`; the source divides by
`requests_before_increase`, which must be positive to avoid a
`ZeroDivisionError`.) -/
def effectiveDelay (cfg : RateLimiterConfig) (requestCount : ℕ) : ℚ :=
  if cfg.requestsBeforeIncrease < requestCount then
    min (cfg.minDelay *
          (1 + (min (requestCount / cfg.requestsBeforeIncrease) 5 : ℕ) * (1 / 2 : ℚ)))
      cfg.maxDelay
  else cfg.minDelay

/-- Source `RateLimiter.wait_for_slot` at entry instant `now`, assuming each sleep
completes exactly at its target: returns the instant at which the caller
proceeds and the updated state.  Note the source computes
`time_since_last` from the entry instant even after a cooldown sleep. -/
def wait_for_slot (cfg : RateLimiterConfig) (dom : Str → Str) (url : Str)
    (now : ℚ) (st : RLState) : ℚ × RLState :=
  let d := dom url
  let s := getState st d
  let (t1, s1) :=
    if s.blocked && decide (now < s.blockedUntil) then
      (s.blockedUntil, { s with blocked := false })
    else (now, s)
  let delay := effectiveDelay cfg s.requestCount
  let timeSinceLast := now - s.lastRequestTime
  let t2 := if timeSinceLast < delay then t1 + (delay - timeSinceLast) else t1
  (t2, setState st d { s1 with lastRequestTime := t2, requestCount := s1.requestCount + 1 })

/-- Source `RateLimiter.mark_blocked` at instant `t`. -/
def mark_blocked (cfg : RateLimiterConfig) (dom : Str → Str) (url : Str)
    (t : ℚ) (st : RLState) : RLState :=
  let d := dom url
  let s := getState st d
  setState st d
    { s with blocked := true, blockedUntil := t + cfg.blockCooldown, requestCount := 0 }

/-- Source `RateLimiter.is_blocked` at instant `t`: reports the blocked flag,
clearing it when the cooldown has elapsed. -/
def is_blocked (dom : Str → Str) (url : Str) (t : ℚ) (st : RLState) :
    Bool × RLState :=
  let d := dom url
  let s := getState st d
  if s.blocked && decide (s.blockedUntil ≤ t) then
    (false, setState st d { s with blocked := false })
  else (s.blocked, st)

/-! ## Scraper factory (backend/scrapers/scraper_factory.py)

A fetch attempt of one strategy is a value of `Except Str Str` (error
message or html); the two singletons therefore enter the model as a
`behavior` function on the strategy kind. -/

/-- The two concrete fetch strategies. -/
inductive StrategyKind where
  | static
  | dynamic
deriving DecidableEq, Repr

/-- The ordered `scrapers_to_try` list of `scrape_with_fallback`, paired
with the reported names; for AUTO the detector recommendation picks the
primary. -/
def scrapersToTry (primary : ScraperType) (detectorRecommendsDynamic : Bool) :
    List (StrategyKind × Str) :=
  match primary with
  | .static => [(.static, str "static"), (.dynamic, str "dynamic (fallback)")]
  | .dynamic => [(.dynamic, str "dynamic"), (.static, str "static (fallback)")]
  | .auto =>
    if detectorRecommendsDynamic then
      [(.dynamic, str "dynamic"), (.static, str "static (fallback)")]
    else
      [(.static, str "static"), (.dynamic, str "dynamic (fallback)")]

/-- The attempt loop of `scrape_with_fallback` with its `last_error`
accumulator; also counts the fetch attempts made. -/
def tryScrapers (behavior : StrategyKind → Except Str Str) :
    List (StrategyKind × Str) → Option Str → Except Str (Str × Str) × ℕ
  | [], lastError => (.error (lastError.getD (str "All scrapers failed")), 0)
  | (k, n) :: rest, _lastError =>
    match behavior k with
    | .ok html => (.ok (html, n), 1)
    | .error e =>
      let (r, c) := tryScrapers behavior rest (some e)
      (r, c + 1)

/-- Source `ScraperFactory.scrape_with_fallback`. -/
def scrape_with_fallback (behavior : StrategyKind → Except Str Str)
    (primary : ScraperType) (detectorRecommendsDynamic : Bool) :
    Except Str (Str × Str) × ℕ :=
  tryScrapers behavior (scrapersToTry primary detectorRecommendsDynamic) none

/-! ## Page type detector (backend/scrapers/page_detector.py)

The regular expression engine is external: `m pat` models
`re.search(pat, html, re.IGNORECASE)` for the fetched body, and `textLen`
models `len(soup.get_text(strip=True))`. -/

/-- Source `PageTypeDetector.DYNAMIC_INDICATORS`, in source order. -/
def DYNAMIC_INDICATORS : List (Str × Str) :=
  [(str "__NEXT_DATA__", str "Next.js detected"),
   (str "__NUXT__", str "Nuxt.js detected"),
   (str "ng-app|ng-controller", str "AngularJS detected"),
   (str "data-reactroot|data-react", str "React detected"),
   (str "data-v-[a-f0-9]", str "Vue.js detected"),
   (str "ember-view", str "Ember.js detected"),
   (str "<noscript>.*enable javascript", str "NoScript JavaScript warning"),
   (str "loading[\"\\s>]|spinner", str "Loading indicator present"),
   (str "<div id=\"(app|root|main)\">\\s*</div>", str "Empty app container"),
   (str "<main[^>]*>\\s*</main>", str "Empty main container"),
   (str "window\\.__INITIAL_STATE__", str "Initial state injection"),
   (str "window\\.__DATA__", str "Data injection")]

/-- Source `PageTypeDetector.STATIC_INDICATORS`, in source order. -/
def STATIC_INDICATORS : List (Str × Str) :=
  [(str "<article", str "Article element present"),
   (str "<p>[\\w\\s]\x7b50,\x7d", str "Paragraph with substantial content"),
   (str "<table[\\s\\S]*?<td", str "Table with data"),
   (str "<ul[\\s\\S]*?<li[\\s\\S]*?<li", str "List with multiple items"),
   (str "class=\".*content.*\"[\\s\\S]\x7b100,\x7d", str "Content class with data")]

/-- The dynamic patterns matching the body. -/
def dynHits (m : Str → Bool) : List (Str × Str) :=
  DYNAMIC_INDICATORS.filter (fun pd => m pd.1)

/-- The static patterns matching the body. -/
def statHits (m : Str → Bool) : List (Str × Str) :=
  STATIC_INDICATORS.filter (fun pd => m pd.1)

/-- Source `PageTypeDetector._analyze_html`: (is_dynamic, confidence, indicators). -/
def analyze_html (m : Str → Bool) (textLen : ℕ) : Bool × ℚ × List Str :=
  let indicators :=
    (dynHits m).map (fun pd => str "🔴 " ++ pd.2) ++
    (statHits m).map (fun pd => str "🟢 " ++ pd.2)
  let dynamicScore := (dynHits m).length
  let staticScore := (statHits m).length
  let (indicators, dynamicScore, staticScore) :=
    if textLen < 500 then
      (indicators ++ [str "🔴 Low content density"], dynamicScore + 2, staticScore)
    else if 2000 < textLen then
      (indicators ++ [str "🟢 High content density"], dynamicScore, staticScore + 1)
    else (indicators, dynamicScore, staticScore)
  let totalChecks := dynamicScore + staticScore
  if totalChecks = 0 then (false, 1 / 2, [str "No clear indicators found"])
  else
    (decide (staticScore < dynamicScore),
     min (19 / 20 : ℚ)
       (|(dynamicScore : ℚ) - (staticScore : ℚ)| / (totalChecks : ℚ) + 3 / 10),
     indicators)

/-- The dynamic score including the content density bump. -/
def dynamicScoreOf (m : Str → Bool) (textLen : ℕ) : ℕ :=
  (dynHits m).length + (if textLen < 500 then 2 else 0)

/-- The static score including the content density bump. -/
def staticScoreOf (m : Str → Bool) (textLen : ℕ) : ℕ :=
  (statHits m).length + (if ¬textLen < 500 ∧ 2000 < textLen then 1 else 0)

/-! ## Scraping engine (backend/scraping_engine.py)

`fetchPage i u` models the i-th call of `ScraperFactory.scrape_with_fallback`
returning the html body and the strategy name, or raising; `docOf` is the
BeautifulSoup parse; `findNext` is the select-one plus urljoin body of
`_find_next_page`.  Wall time is not modelled, so the success field
`elapsed_time` is omitted. -/

/-- The exceptions the engine distinguishes: `asyncio.TimeoutError` and any
other exception with its message. -/
inductive EngineError where
  | timeoutErr
  | excErr (msg : Str)
deriving DecidableEq

/-- The external collaborators of one engine run. -/
structure EngineEnv (E : Type) where
  fetchPage : ℕ → Str → Except EngineError (Str × Str)
  qe : Qe E
  docOf : Str → E
  findNext : Str → Str → Str → Option Str
  join : Str → Str → Str

/-- Source `ScrapingEngine._find_next_page`: `None` without a truthy selector. -/
def findNextPage {E : Type} (env : EngineEnv E) (html : Str)
    (selector : Option Str) (cur : Str) : Option Str :=
  match selector with
  | none => none
  | some s => if s = [] then none else env.findNext html s cur

/-- Source `ScrapeResult` of models.py (without the unmodelled wall time). -/
structure ScrapeResult where
  url : Str
  scraperUsed : Str
  data : List Record
  totalItems : ℕ
  pagesScraped : ℕ
deriving DecidableEq

/-- Source `ScrapeResponse` of models.py: exactly one variant populated. -/
inductive ScrapeResponse where
  | success : ScrapeResult → ScrapeResponse
  | failure : (code message : Str) → ScrapeResponse
deriving DecidableEq

/-- The loop bound: `max_pages` when pagination is on (Python `range`
clamps negatives to zero), otherwise one. -/
def maxPagesOf (req : ScrapeRequest) : ℕ :=
  match req.pagination with
  | some p => if p.enabled then p.maxPages.toNat else 1
  | none => 1

/-- The pagination loop of `ScrapingEngine.scrape`, with the fuel
`n` counting the remaining iterations of `range(max_pages)`.  Returns the
accumulator, pages scraped and last strategy name (or the propagated
exception), paired with the number of fetch calls issued. -/
def scrapeLoop {E : Type} (env : EngineEnv E) (req : ScrapeRequest) :
    ℕ → ℕ → Str → List Record → ℕ → Str →
    Except EngineError (List Record × ℕ × Str) × ℕ
  | 0, calls, _, acc, pages, used => (.ok (acc, pages, used), calls)
  | n + 1, calls, cur, acc, pages, _used =>
    match env.fetchPage calls cur with
    | .error e => (.error e, calls + 1)
    | .ok (html, name) =>
      let acc2 := acc ++ extract_data env.qe req.fields req.containerSelector (env.docOf html)
      let pages2 := pages + 1
      match req.pagination with
      | some p =>
        if p.enabled = true ∧ 0 < n then
          match findNextPage env html p.nextPageSelector cur with
          | some nextUrl => scrapeLoop env req n (calls + 1) nextUrl acc2 pages2 name
          | none => (.ok (acc2, pages2, name), calls + 1)
        else scrapeLoop env req n (calls + 1) cur acc2 pages2 name
      | none => scrapeLoop env req n (calls + 1) cur acc2 pages2 name

/-- Source `ScrapingEngine.scrape`, paired with the number of fetch calls issued
(zero on the validation paths). -/
def scrape {E : Type} (env : EngineEnv E) (req : ScrapeRequest) :
    ScrapeResponse × ℕ :=
  if req.url = [] ∨ ¬((str "http://").isPrefixOf req.url ∨
      (str "https://").isPrefixOf req.url) then
    (.failure (str "INVALID_URL") (str "URL must start with http:// or https://"), 0)
  else if req.fields = [] then
    (.failure (str "NO_FIELDS") (str "At least one extraction field is required"), 0)
  else
    match scrapeLoop env req (maxPagesOf req) 0 req.url [] 0 [] with
    | (.ok (allData, pages, used), calls) =>
      let normalized := normalize env.join (some req.url) true allData
      (.success ⟨req.url, used, normalized, normalized.length, pages⟩, calls)
    | (.error .timeoutErr, calls) =>
      (.failure (str "TIMEOUT")
        (str "Request timed out after " ++ (toString req.timeout).toList ++
          str " seconds"), calls)
    | (.error (.excErr msg), calls) => (.failure (str "SCRAPE_ERROR") msg, calls)

/-! ## Claim C6: rate limiter pacing -/

/-- C6: with `minDelay ≤ maxDelay` (and the implicit sanity conditions
`0 ≤ minDelay` and a positive threshold, without which the Python code
divides by zero), the effective delay equals `minDelay` while the request
count is at most the threshold, follows the capped step formula beyond it,
is non-decreasing in the request count, and never exceeds `maxDelay`. -/
theorem effectiveDelay_spec (cfg : RateLimiterConfig)
    (h0 : 0 ≤ cfg.minDelay) (h1 : cfg.minDelay ≤ cfg.maxDelay)
    (hT : 0 < cfg.requestsBeforeIncrease) :
    (∀ n, n ≤ cfg.requestsBeforeIncrease → effectiveDelay cfg n = cfg.minDelay) ∧
    (∀ n, cfg.requestsBeforeIncrease < n →
      effectiveDelay cfg n =
        min (cfg.minDelay *
              (1 + (min (n / cfg.requestsBeforeIncrease) 5 : ℕ) * (1 / 2 : ℚ)))
          cfg.maxDelay) ∧
    (∀ m n, m ≤ n → effectiveDelay cfg m ≤ effectiveDelay cfg n) ∧
    (∀ n, effectiveDelay cfg n ≤ cfg.maxDelay) := by
  have hbase : ∀ k : ℕ, cfg.minDelay ≤ cfg.minDelay * (1 + (k : ℚ) * (1 / 2)) := by
    intro k
    have hk : (0 : ℚ) ≤ (k : ℚ) := Nat.cast_nonneg k
    nlinarith
  have hstep : ∀ k₁ k₂ : ℕ, k₁ ≤ k₂ →
      cfg.minDelay * (1 + (k₁ : ℚ) * (1 / 2)) ≤
        cfg.minDelay * (1 + (k₂ : ℚ) * (1 / 2)) := by
    intro k₁ k₂ hk
    have : (k₁ : ℚ) ≤ (k₂ : ℚ) := Nat.cast_le.mpr hk
    nlinarith
  refine ⟨?_, ?_, ?_, ?_⟩
  · intro n hn
    simp [effectiveDelay, Nat.not_lt.mpr hn]
  · intro n hn
    simp [effectiveDelay, hn]
  · intro m n hmn
    by_cases hm : cfg.requestsBeforeIncrease < m
    · have hn : cfg.requestsBeforeIncrease < n := lt_of_lt_of_le hm hmn
      simp only [effectiveDelay, if_pos hm, if_pos hn]
      refine min_le_min (hstep _ _ ?_) le_rfl
      exact min_le_min (Nat.div_le_div_right hmn) le_rfl
    · by_cases hn : cfg.requestsBeforeIncrease < n
      · simp only [effectiveDelay, if_neg hm, if_pos hn]
        exact le_min (hbase _) h1
      · simp [effectiveDelay, hm, hn]
  · intro n
    by_cases hn : cfg.requestsBeforeIncrease < n
    · simp only [effectiveDelay, if_pos hn]
      exact min_le_right _ _
    · simp [effectiveDelay, hn, h1]

/-- Witness for C6 at the constructor defaults: the 25th request of a
threshold-10 limiter is paced at 2 seconds. -/
theorem effectiveDelay_spec_witness :
    effectiveDelay ⟨1, 10, 10, 60⟩ 25 = 2 := by
  have h :=
    (effectiveDelay_spec ⟨1, 10, 10, 60⟩ (by norm_num) (by norm_num)
      (by norm_num)).2.1 25 (by norm_num)
  rw [h]
  norm_num

/-! ## Claim C7: blocking cooldown -/

/-- Reading back a freshly stored domain state. -/
theorem getState_setState (st : RLState) (d : Str) (s : DomainState) :
    getState (setState st d s) d = s := by
  induction st with
  | nil => simp [setState, getState]
  | cons hd tl ih =>
    obtain ⟨k, s₀⟩ := hd
    by_cases h : k = d
    · simp [setState, getState, h]
    · simp [setState, getState, h, ih]

/-- C7: after `mark_blocked` at instant `t` with a positive cooldown, the
domain state carries `blockedUntil = t + cooldown` and a request count of
zero, `is_blocked` is true at `t` itself, and at any instant it is true
exactly while the instant precedes `blockedUntil`. -/
theorem mark_blocked_spec (cfg : RateLimiterConfig) (dom : Str → Str)
    (url : Str) (t : ℚ) (st : RLState) (hc : 0 < cfg.blockCooldown) :
    (getState (mark_blocked cfg dom url t st) (dom url)).blockedUntil =
        t + cfg.blockCooldown ∧
    (getState (mark_blocked cfg dom url t st) (dom url)).requestCount = 0 ∧
    (is_blocked dom url t (mark_blocked cfg dom url t st)).1 = true ∧
    ∀ t2 : ℚ, ((is_blocked dom url t2 (mark_blocked cfg dom url t st)).1 = true ↔
      t2 < t + cfg.blockCooldown) := by
  have hget :
      getState (mark_blocked cfg dom url t st) (dom url) =
        { getState st (dom url) with
            blocked := true, blockedUntil := t + cfg.blockCooldown,
            requestCount := 0 } := by
    simp [mark_blocked, getState_setState]
  have hval : ∀ t2 : ℚ,
      (is_blocked dom url t2 (mark_blocked cfg dom url t st)).1 =
        !decide (t + cfg.blockCooldown ≤ t2) := by
    intro t2
    by_cases h : t + cfg.blockCooldown ≤ t2
    · simp [is_blocked, hget, h]
    · simp [is_blocked, hget, h]
  refine ⟨by simp [hget], by simp [hget], ?_, ?_⟩
  · rw [hval t]
    simp
    linarith
  · intro t2
    rw [hval t2]
    simp [not_le]

/-- Witness for C7 on a concrete limiter, domain map and instant. -/
theorem mark_blocked_spec_witness :
    (getState (mark_blocked ⟨1, 10, 10, 60⟩ (fun u => u) (str "http://a") 5 [])
        (str "http://a")).blockedUntil = 65 ∧
    (is_blocked (fun u => u) (str "http://a") 64
        (mark_blocked ⟨1, 10, 10, 60⟩ (fun u => u) (str "http://a") 5 [])).1 = true ∧
    (is_blocked (fun u => u) (str "http://a") 65
        (mark_blocked ⟨1, 10, 10, 60⟩ (fun u => u) (str "http://a") 5 [])).1 ≠ true := by
  have h :=
    mark_blocked_spec ⟨1, 10, 10, 60⟩ (fun u => u) (str "http://a") 5 []
      (by norm_num)
  refine ⟨by rw [h.1]; norm_num, (h.2.2.2 64).mpr (by norm_num), ?_⟩
  intro hcon
  have := (h.2.2.2 65).mp hcon
  norm_num at this

/-! ## Claim C8: strategy fallback -/

/-- Evaluation of the attempt loop on a two-candidate list. -/
theorem tryScrapers_two (behavior : StrategyKind → Except Str Str)
    (k₁ k₂ : StrategyKind) (n₁ n₂ : Str) (le : Option Str) :
    tryScrapers behavior [(k₁, n₁), (k₂, n₂)] le =
      match behavior k₁ with
      | .ok h => (.ok (h, n₁), 1)
      | .error _ =>
        match behavior k₂ with
        | .ok h => (.ok (h, n₂), 2)
        | .error e₂ => (.error e₂, 2) := by
  rcases h1 : behavior k₁ with e₁ | v₁ <;> rcases h2 : behavior k₂ with e₂ | v₂ <;>
    simp [tryScrapers, h1, h2]

/-- The candidate list always holds exactly the primary and the other
strategy, in that order. -/
theorem scrapersToTry_pair (primary : ScraperType) (det : Bool) :
    ∃ k₁ n₁ k₂ n₂, scrapersToTry primary det = [(k₁, n₁), (k₂, n₂)] ∧ k₁ ≠ k₂ := by
  cases primary <;> cases det <;> exact ⟨_, _, _, _, rfl, by decide⟩

/-- C8: `scrape_with_fallback` makes at most two attempts in the fixed
primary-then-secondary order, short-circuits on the first success, and when
both attempts fail surfaces the second error, discarding the first. -/
theorem scrape_with_fallback_spec (behavior : StrategyKind → Except Str Str)
    (primary : ScraperType) (det : Bool) :
    (scrape_with_fallback behavior primary det).2 ≤ 2 ∧
    ∀ k₁ n₁ k₂ n₂, scrapersToTry primary det = [(k₁, n₁), (k₂, n₂)] →
      ((∀ h, behavior k₁ = .ok h →
          scrape_with_fallback behavior primary det = (.ok (h, n₁), 1)) ∧
       (∀ e h, behavior k₁ = .error e → behavior k₂ = .ok h →
          scrape_with_fallback behavior primary det = (.ok (h, n₂), 2)) ∧
       (∀ e₁ e₂, behavior k₁ = .error e₁ → behavior k₂ = .error e₂ →
          scrape_with_fallback behavior primary det = (.error e₂, 2))) := by
  obtain ⟨k₁, n₁, k₂, n₂, hl, -⟩ := scrapersToTry_pair primary det
  constructor
  · rw [scrape_with_fallback, hl, tryScrapers_two]
    rcases h1 : behavior k₁ <;> rcases h2 : behavior k₂ <;> simp
  · intro k₁' n₁' k₂' n₂' hl'
    rw [hl] at hl'
    obtain ⟨⟨h1, h2⟩, h3, h4⟩ : (k₁ = k₁' ∧ n₁ = n₁') ∧ k₂ = k₂' ∧ n₂ = n₂' := by
      simpa using hl'
    subst h1; subst h2; subst h3; subst h4
    refine ⟨?_, ?_, ?_⟩
    · intro h hb
      rw [scrape_with_fallback, hl, tryScrapers_two, hb]
    · intro e h hb1 hb2
      rw [scrape_with_fallback, hl, tryScrapers_two, hb1, hb2]
    · intro e₁ e₂ hb1 hb2
      rw [scrape_with_fallback, hl, tryScrapers_two, hb1, hb2]

/-- Witness for C8: with both strategies failing in STATIC mode, the second
(fallback) error surfaces after exactly two attempts. -/
theorem scrape_with_fallback_spec_witness :
    scrape_with_fallback
        (fun k => match k with
          | .static => .error (str "first boom")
          | .dynamic => .error (str "second boom"))
        .static false = (.error (str "second boom"), 2) :=
  ((scrape_with_fallback_spec
      (fun k => match k with
        | .static => .error (str "first boom")
        | .dynamic => .error (str "second boom"))
      .static false).2 _ _ _ _ rfl).2.2 _ _ rfl rfl

/-! ## Claim C9: detector scoring decision -/

/-- C9 counterexample: when no signal is found the single indicator the
code emits is the string `No clear indicators found`, not the string
`no signals found` the claim states. -/
theorem analyze_html_counterexample :
    (analyze_html (fun _ => false) 1000).2.2 = [str "No clear indicators found"] ∧
    str "No clear indicators found" ≠ str "no signals found" := by
  constructor
  · rfl
  · decide

/-- C9 amended: with both scores zero the result is static with confidence
one half and the single indicator `No clear indicators found`; otherwise
the page is classified dynamic exactly when the dynamic score exceeds the
static score, with confidence
`min 0.95 (|dyn - stat| / (dyn + stat) + 0.3)`. -/
theorem analyze_html_spec (m : Str → Bool) (textLen : ℕ) :
    (dynamicScoreOf m textLen = 0 ∧ staticScoreOf m textLen = 0 →
      analyze_html m textLen = (false, 1 / 2, [str "No clear indicators found"])) ∧
    (¬(dynamicScoreOf m textLen = 0 ∧ staticScoreOf m textLen = 0) →
      (analyze_html m textLen).1 =
          decide (staticScoreOf m textLen < dynamicScoreOf m textLen) ∧
      (analyze_html m textLen).2.1 =
        min (19 / 20 : ℚ)
          (|(dynamicScoreOf m textLen : ℚ) - (staticScoreOf m textLen : ℚ)| /
            ((dynamicScoreOf m textLen : ℚ) + (staticScoreOf m textLen : ℚ)) +
            3 / 10)) := by
  unfold analyze_html dynamicScoreOf staticScoreOf
  by_cases h5 : textLen < 500
  · have hsc : ¬(¬textLen < 500 ∧ 2000 < textLen) := fun hc => hc.1 h5
    simp only [if_pos h5, if_neg hsc, Nat.add_zero]
    constructor
    · intro hz
      omega
    · intro hz
      have hne : ¬((dynHits m).length + 2 + (statHits m).length = 0) := by omega
      rw [if_neg hne]
      refine ⟨rfl, ?_⟩
      push_cast
      ring_nf
  · by_cases h2 : 2000 < textLen
    · have hsc : ¬textLen < 500 ∧ 2000 < textLen := ⟨h5, h2⟩
      simp only [if_neg h5, if_pos h2, if_pos hsc, Nat.add_zero]
      constructor
      · intro hz
        omega
      · intro hz
        have hne : ¬((dynHits m).length + ((statHits m).length + 1) = 0) := by
          omega
        rw [if_neg hne]
        refine ⟨rfl, ?_⟩
        push_cast
        ring_nf
    · have hsc : ¬(¬textLen < 500 ∧ 2000 < textLen) := fun hc => h2 hc.2
      simp only [if_neg h5, if_neg h2, if_neg hsc, Nat.add_zero]
      constructor
      · intro hz
        have hz0 : (dynHits m).length + (statHits m).length = 0 := by omega
        rw [if_pos hz0]
      · intro hz
        have hne : ¬((dynHits m).length + (statHits m).length = 0) := by
          rcases Nat.eq_zero_or_pos (dynHits m).length with hd | hd <;>
            rcases Nat.eq_zero_or_pos (statHits m).length with hs | hs <;>
            omega
        rw [if_neg hne]
        refine ⟨rfl, ?_⟩
        push_cast
        ring_nf

/-- Witness for C9 at a body matching every pattern with low density:
dynamic, fourteen against five. -/
theorem analyze_html_spec_witness :
    (analyze_html (fun _ => true) 100).1 = true ∧
    (analyze_html (fun _ => true) 100).2.1 =
      min (19 / 20 : ℚ) (9 / 19 + 3 / 10) := by
  have h := (analyze_html_spec (fun _ => true) 100).2 (by decide)
  refine ⟨?_, ?_⟩
  · rw [h.1]
    decide
  · rw [h.2]
    norm_num [dynamicScoreOf, staticScoreOf, dynHits, statHits,
      DYNAMIC_INDICATORS, STATIC_INDICATORS]

/-! ## Claim C1: validation short-circuits fetching -/

/-- C1: a request whose URL lacks an http or https prefix, or whose field
list is empty, yields a validation failure (INVALID_URL or NO_FIELDS) with
zero fetch calls. -/
theorem scrape_validation_no_fetch {E : Type} (env : EngineEnv E)
    (req : ScrapeRequest)
    (h : ¬((str "http://").isPrefixOf req.url ∨
            (str "https://").isPrefixOf req.url) ∨ req.fields = []) :
    (scrape env req).2 = 0 ∧
    ∃ code message, (scrape env req).1 = .failure code message ∧
      (code = str "INVALID_URL" ∨ code = str "NO_FIELDS") := by
  by_cases h1 : req.url = [] ∨ ¬((str "http://").isPrefixOf req.url ∨
      (str "https://").isPrefixOf req.url)
  · rw [scrape, if_pos h1]
    exact ⟨rfl, _, _, rfl, Or.inl rfl⟩
  · have hf : req.fields = [] := by
      rcases h with h | h
      · exact absurd (Or.inr h) h1
      · exact h
    rw [scrape, if_neg h1, if_pos hf]
    exact ⟨rfl, _, _, rfl, Or.inr rfl⟩

/-- A trivial query capability over the unit element type. -/
def unitQe : Qe Unit where
  selectAll := fun _ _ => []
  getAttr := fun _ _ => none
  getText := fun _ => []
  xpathAll := fun _ _ => []

/-- A concrete engine environment whose transport always times out. -/
def env0 : EngineEnv Unit where
  fetchPage := fun _ _ => .error .timeoutErr
  qe := unitQe
  docOf := fun _ => ()
  findNext := fun _ _ _ => none
  join := fun _ u => u

/-- A request with a non-http scheme and a non-empty field list. -/
def reqBadUrl : ScrapeRequest :=
  { url := str "ftp://example.com"
    fields := [{ name := str "title", selector := str "h2" }] }

/-- Witness for C1: the ftp request fails validation with zero fetches. -/
theorem scrape_validation_no_fetch_witness :
    (scrape env0 reqBadUrl).2 = 0 ∧
    ∃ code message, (scrape env0 reqBadUrl).1 = .failure code message ∧
      (code = str "INVALID_URL" ∨ code = str "NO_FIELDS") :=
  scrape_validation_no_fetch env0 reqBadUrl (Or.inl (by decide))

/-! ## Claim C10: non-positive max_pages -/

/-- C10: with pagination enabled and `max_pages ≤ 0` (nothing enforces the
spec invariant `maxPages ≥ 1`), a valid request scrapes zero pages: no
fetch call is made and the outcome is success with empty data, zero items,
zero pages and an empty strategy name. -/
theorem scrape_nonpositive_max_pages {E : Type} (env : EngineEnv E)
    (req : ScrapeRequest) (p : PaginationConfig)
    (hp : req.pagination = some p) (he : p.enabled = true)
    (hm : p.maxPages ≤ 0)
    (hu : (str "http://").isPrefixOf req.url ∨
          (str "https://").isPrefixOf req.url)
    (hf : req.fields ≠ []) :
    scrape env req = (.success ⟨req.url, [], [], 0, 0⟩, 0) := by
  have hurl : ¬(req.url = [] ∨ ¬((str "http://").isPrefixOf req.url ∨
      (str "https://").isPrefixOf req.url)) := by
    push_neg
    refine ⟨?_, hu⟩
    intro hnil
    rw [hnil] at hu
    rcases hu with hu | hu <;> simpa [str] using hu
  have hmax : maxPagesOf req = 0 := by
    rw [maxPagesOf, hp]
    simp [he, Int.toNat_eq_zero.mpr hm]
  rw [scrape, if_neg hurl, if_neg hf, hmax]
  rfl

/-- A valid request with pagination enabled and a zero page budget. -/
def reqZeroPages : ScrapeRequest :=
  { url := str "http://example.com"
    fields := [{ name := str "title", selector := str "h2" }]
    pagination := some { enabled := true, nextPageSelector := some (str "a.next"),
                         maxPages := 0 } }

/-- Witness for C10 on a concrete environment and request. -/
theorem scrape_nonpositive_max_pages_witness :
    scrape env0 reqZeroPages =
      (.success ⟨str "http://example.com", [], [], 0, 0⟩, 0) :=
  scrape_nonpositive_max_pages env0 reqZeroPages _ rfl rfl (by decide)
    (Or.inl (by decide)) (by decide)

/-! ## Claim C3: which strategy name the success outcome reports -/

/-- Any successful run of the pagination loop either made no iteration
(returning the incoming accumulator values) or ends with the strategy name
returned by its last fetch call. -/
theorem scrapeLoop_ok_last {E : Type} (env : EngineEnv E) (req : ScrapeRequest) :
    ∀ (n calls : ℕ) (cur : Str) (acc : List Record) (pages : ℕ) (used : Str)
      (d : List Record) (p : ℕ) (u : Str) (c : ℕ),
      scrapeLoop env req n calls cur acc pages used = (.ok (d, p, u), c) →
      (p = pages ∧ u = used ∧ c = calls) ∨
      (pages < p ∧ c = calls + (p - pages) ∧
        ∃ url html, env.fetchPage (c - 1) url = .ok (html, u)) := by
  intro n
  induction n with
  | zero =>
    intro calls cur acc pages used d p u c h
    rw [scrapeLoop] at h
    have h1 : (Except.ok (acc, pages, used) :
        Except EngineError (List Record × ℕ × Str)) = .ok (d, p, u) :=
      congrArg Prod.fst h
    have h2 : calls = c := congrArg Prod.snd h
    have h3 := Except.ok.inj h1
    exact Or.inl ⟨(congrArg (fun x => x.2.1) h3).symm,
      (congrArg (fun x => x.2.2) h3).symm, h2.symm⟩
  | succ n ih =>
    intro calls cur acc pages used d p u c h
    rw [scrapeLoop] at h
    cases hf : env.fetchPage calls cur with
    | error e =>
      rw [hf] at h
      exact absurd (congrArg Prod.fst h) (by simp)
    | ok pr =>
      obtain ⟨html, name⟩ := pr
      rw [hf] at h
      have hterm : ∀ acc2 : List Record,
          ((Except.ok (acc2, pages + 1, name) :
              Except EngineError (List Record × ℕ × Str)), calls + 1) =
            ((.ok (d, p, u) : Except EngineError (List Record × ℕ × Str)), c) →
          (p = pages ∧ u = used ∧ c = calls) ∨
          (pages < p ∧ c = calls + (p - pages) ∧
            ∃ url html2, env.fetchPage (c - 1) url = .ok (html2, u)) := by
        intro acc2 heq
        have e1 : (Except.ok (acc2, pages + 1, name) :
            Except EngineError (List Record × ℕ × Str)) = .ok (d, p, u) :=
          congrArg Prod.fst heq
        have e2 : calls + 1 = c := congrArg Prod.snd heq
        have e3 := Except.ok.inj e1
        have ep : pages + 1 = p := congrArg (fun x => x.2.1) e3
        have eu : name = u := congrArg (fun x => x.2.2) e3
        refine Or.inr ⟨by omega, by omega, cur, html, ?_⟩
        have hc1 : c - 1 = calls := by omega
        rw [hc1, hf, eu]
      have hrec : ∀ (url2 : Str) (acc2 : List Record),
          scrapeLoop env req n (calls + 1) url2 acc2 (pages + 1) name =
            (.ok (d, p, u), c) →
          (p = pages ∧ u = used ∧ c = calls) ∨
          (pages < p ∧ c = calls + (p - pages) ∧
            ∃ url html2, env.fetchPage (c - 1) url = .ok (html2, u)) := by
        intro url2 acc2 heq
        rcases ih (calls + 1) url2 acc2 (pages + 1) name d p u c heq with
          ⟨hp1, hu1, hc1⟩ | ⟨hp1, hc1, url, html2, hfp⟩
        · refine Or.inr ⟨by omega, by omega, cur, html, ?_⟩
          have hc2 : c - 1 = calls := by omega
          rw [hc2, hf, hu1]
        · exact Or.inr ⟨by omega, by omega, url, html2, hfp⟩
      rcases hpag : req.pagination with _ | p'
      · rw [hpag] at h
        dsimp only at h
        exact hrec _ _ h
      · rw [hpag] at h
        dsimp only at h
        by_cases hen : p'.enabled = true ∧ 0 < n
        · rw [if_pos hen] at h
          cases hnx : findNextPage env html p'.nextPageSelector cur with
          | none =>
            rw [hnx] at h
            exact hterm _ h
          | some nextUrl =>
            rw [hnx] at h
            exact hrec _ _ h
        · rw [if_neg hen] at h
          exact hrec _ _ h

/-- C3 amended: for every request that succeeds having scraped at least one
page, `scraper_used` is the strategy name returned by the fetch of the
last page scraped (the engine overwrites the name on every page), not the
first. -/
theorem scrape_scraper_used_last {E : Type} (env : EngineEnv E)
    (req : ScrapeRequest) (r : ScrapeResult) (calls : ℕ)
    (h : scrape env req = (.success r, calls)) (h1 : 1 ≤ r.pagesScraped) :
    ∃ url html, env.fetchPage (r.pagesScraped - 1) url = .ok (html, r.scraperUsed) := by
  rw [scrape] at h
  by_cases hv1 : req.url = [] ∨ ¬((str "http://").isPrefixOf req.url ∨
      (str "https://").isPrefixOf req.url)
  · rw [if_pos hv1] at h
    exact absurd (congrArg Prod.fst h) (by simp)
  · rw [if_neg hv1] at h
    by_cases hv2 : req.fields = []
    · rw [if_pos hv2] at h
      exact absurd (congrArg Prod.fst h) (by simp)
    · rw [if_neg hv2] at h
      rcases hl : scrapeLoop env req (maxPagesOf req) 0 req.url [] 0 [] with ⟨res, c⟩
      rw [hl] at h
      rcases res with e | ⟨d, p, u⟩
      · rcases e with _ | msg <;>
          · dsimp only at h
            exact absurd (congrArg Prod.fst h) (by simp)
      · dsimp only at h
        have hresp : (ScrapeResponse.success ⟨req.url, u,
            normalize env.join (some req.url) true d,
            (normalize env.join (some req.url) true d).length, p⟩) =
              .success r :=
          congrArg Prod.fst h
        have hcalls : c = calls := congrArg Prod.snd h
        have hr : r = ⟨req.url, u,
            normalize env.join (some req.url) true d,
            (normalize env.join (some req.url) true d).length, p⟩ :=
          (ScrapeResponse.success.inj hresp).symm
        have hps : r.pagesScraped = p := by rw [hr]
        have hsu : r.scraperUsed = u := by rw [hr]
        rcases scrapeLoop_ok_last env req (maxPagesOf req) 0 req.url [] 0 [] d p u c hl with
          ⟨hp, _, _⟩ | ⟨hplt, hc, url, html, hfp⟩
        · rw [hps] at h1
          omega
        · have hpc : c = p := by omega
          refine ⟨url, html, ?_⟩
          rw [hps, hsu, ← hpc]
          exact hfp

/-- A fetch oracle whose first call reports the static strategy and whose
later calls report the dynamic fallback. -/
def fetchTwo : ℕ → Str → Except EngineError (Str × Str) := fun i _ =>
  if i = 0 then .ok (str "<p>one</p>", str "static")
  else .ok (str "<p>two</p>", str "dynamic (fallback)")

/-- Environment with the two-name fetch oracle and a next page always
found. -/
def envTwo : EngineEnv Unit where
  fetchPage := fetchTwo
  qe := unitQe
  docOf := fun _ => ()
  findNext := fun _ _ _ => some (str "http://a/2")
  join := fun _ u => u

/-- A two-page paginated request. -/
def reqTwoPages : ScrapeRequest :=
  { url := str "http://a"
    fields := [{ name := str "title", selector := str "h2" }]
    pagination := some { enabled := true,
                         nextPageSelector := some (str "a.next"),
                         maxPages := 2 } }

/-- C3 counterexample: the first page is fetched by `static`, yet the
success outcome reports `dynamic (fallback)`, the name from the second
(last) page. -/
theorem scrape_scraper_used_counterexample :
    envTwo.fetchPage 0 (str "http://a") = .ok (str "<p>one</p>", str "static") ∧
    (scrape envTwo reqTwoPages).1 =
      .success ⟨str "http://a", str "dynamic (fallback)", [], 0, 2⟩ ∧
    str "dynamic (fallback)" ≠ str "static" := by
  refine ⟨rfl, ?_, by decide⟩
  rfl

/-- Witness for the amended C3 on the concrete two-page run. -/
theorem scrape_scraper_used_last_witness :
    ∃ url html, envTwo.fetchPage 1 url = .ok (html, str "dynamic (fallback)") := by
  have h := scrape_scraper_used_last envTwo reqTwoPages
    ⟨str "http://a", str "dynamic (fallback)", [], 0, 2⟩ 2 rfl (by norm_num)
  exact h

/-! ## Claim C2: container extraction semantics -/

/-- C2 amended: with a non-empty container selector the extractor returns,
in order, the per-container records that contain at least one non-`None`
value; the drop test looks only at `None`, so records of empty strings or
empty lists are kept.  At most one record per container is produced. -/
theorem extract_data_container_spec {E : Type} (qe : Qe E)
    (fields : List ExtractionField) (cs : Str) (doc : E) (hcs : cs ≠ []) :
    (∀ r, r ∈ extract_data qe fields (some cs) doc ↔
      ∃ c ∈ qe.selectAll doc cs, r = extractFieldsFromElement qe fields c ∧
        ∃ kv ∈ r, kv.2 ≠ Val.vnull) ∧
    (extract_data qe fields (some cs) doc).length ≤
      (qe.selectAll doc cs).length := by
  constructor
  · intro r
    simp only [extract_data, if_neg hcs, List.mem_filter, List.mem_map,
      List.any_eq_true, decide_eq_true_eq]
    constructor
    · rintro ⟨⟨c, hc, rfl⟩, kv, hkv, hne⟩
      exact ⟨c, hc, rfl, kv, hkv, hne⟩
    · rintro ⟨c, hc, rfl, kv, hkv, hne⟩
      exact ⟨⟨c, hc, rfl⟩, kv, hkv, hne⟩
  · simp only [extract_data, if_neg hcs]
    exact le_trans (List.length_filter_le _ _)
      (le_of_eq (List.length_map _ _))

/-- A document (element 0) with one container (element 1) in which the
multi-valued field selector matches nothing. -/
def qeOneEmpty : Qe ℕ where
  selectAll := fun e sel => if e = 0 ∧ sel = str "c" then [1] else []
  getAttr := fun _ _ => none
  getText := fun _ => []
  xpathAll := fun _ _ => []

/-- A multi-valued field. -/
def fieldMulti : ExtractionField :=
  { name := str "tags", selector := str "f", multiple := true }

/-- C2 counterexample: the container record holds only the empty list, an
empty value in the sense of the claim, yet `extract_data` keeps it (the
code only drops all-`None` records), so the claimed result of dropping it
is refuted. -/
theorem extract_data_counterexample :
    extract_data qeOneEmpty [fieldMulti] (some (str "c")) 0 =
      [[(str "tags", Val.vlist [])]] ∧
    ∀ kv ∈ [(str "tags", Val.vlist [])],
      kv.2 = Val.vnull ∨ kv.2 = Val.vstr [] ∨ kv.2 = Val.vlist [] := by
  exact ⟨rfl, by decide⟩

/-- A document (element 0) with three containers (1, 2, 3); the field
selector finds text only inside containers 1 and 3. -/
def qeThree : Qe ℕ where
  selectAll := fun e sel =>
    if e = 0 ∧ sel = str "c" then [1, 2, 3]
    else if e = 1 ∧ sel = str "f" then [10]
    else if e = 3 ∧ sel = str "f" then [30]
    else []
  getAttr := fun _ _ => none
  getText := fun e => if e = 10 then str "x" else if e = 30 then str "y" else []
  xpathAll := fun _ _ => []

/-- A plain text field. -/
def fieldTitle : ExtractionField := { name := str "t", selector := str "f" }

/-- Witness for C2: three containers of which two yield a non-null match
give exactly two records, and the membership characterization holds on the
first of them. -/
theorem extract_data_container_spec_witness :
    extract_data qeThree [fieldTitle] (some (str "c")) 0 =
      [[(str "t", Val.vstr (str "x"))], [(str "t", Val.vstr (str "y"))]] ∧
    ([(str "t", Val.vstr (str "x"))] ∈
        extract_data qeThree [fieldTitle] (some (str "c")) 0 ↔
      ∃ c ∈ qeThree.selectAll 0 (str "c"),
        [(str "t", Val.vstr (str "x"))] =
          extractFieldsFromElement qeThree [fieldTitle] c ∧
        ∃ kv ∈ [(str "t", Val.vstr (str "x"))], kv.2 ≠ Val.vnull) :=
  ⟨by decide,
   (extract_data_container_spec qeThree [fieldTitle] (str "c") 0 (by decide)).1 _⟩

/-! ## Claim C4: the normalizer drops all-empty records -/

/-- Source `_normalize_item` returns `None` exactly when every value normalizes to
`None`, the empty string or an empty list (the `has_content` test). -/
theorem normalizeItem_eq_none (join : Str → Str → Str) (base : Option Str)
    (item : Record) :
    normalizeItem join base item = none ↔
      ∀ kv ∈ item, hasSignal (normalizeValue join base kv.1 kv.2) = false := by
  by_cases h : item.any
      (fun kv => hasSignal (normalizeValue join base kv.1 kv.2)) = true
  · simp only [normalizeItem, if_pos h]
    rw [List.any_eq_true] at h
    obtain ⟨kv, hkv, hs⟩ := h
    constructor
    · intro hcon
      exact absurd hcon (by simp)
    · intro hall
      rw [hall kv hkv] at hs
      cases hs
  · simp only [normalizeItem, if_neg h]
    rw [Bool.not_eq_true, List.any_eq_false] at h
    constructor
    · intro _ kv hkv
      have := h kv hkv
      simpa using this
    · intro _
      trivial

/-- Source `_remove_duplicates` returns the empty list only on the empty list. -/
theorem remove_duplicates_eq_nil (data : List Record) :
    remove_duplicates data = [] ↔ data = [] := by
  cases data with
  | nil => exact ⟨fun _ => rfl, fun _ => rfl⟩
  | cons x rest =>
    have hx : remove_duplicates (x :: rest) =
        x :: removeDuplicatesGo [hashItem x] rest := rfl
    rw [hx]
    constructor <;> intro h <;> exact (List.cons_ne_nil _ _ h).elim

/-- C4: `normalize` returns no records exactly when in every input record
every value is, after cleaning, `None`, the empty string or an empty list;
in particular the single record `\x7ba: None, b: ""\x7d` normalizes to the
empty list. -/
theorem normalize_drops_empty (join : Str → Str → Str) (base : Option Str)
    (dedupe : Bool) (data : List Record) :
    (normalize join base dedupe data = [] ↔
      ∀ item ∈ data, ∀ kv ∈ item,
        hasSignal (normalizeValue join base kv.1 kv.2) = false) ∧
    normalize join base dedupe [[(str "a", Val.vnull), (str "b", Val.vstr [])]] = [] := by
  have hmain : ∀ D : List Record, normalize join base dedupe D = [] ↔
      ∀ item ∈ D, ∀ kv ∈ item,
        hasSignal (normalizeValue join base kv.1 kv.2) = false := by
    intro D
    have h1 : normalize join base dedupe D = [] ↔
        D.filterMap (normalizeItem join base) = [] := by
      cases dedupe
      · exact Iff.rfl
      · exact remove_duplicates_eq_nil _
    rw [h1, List.filterMap_eq_nil_iff]
    constructor
    · intro h item hitem
      rw [← normalizeItem_eq_none join base item]
      exact h item hitem
    · intro h item hitem
      rw [normalizeItem_eq_none join base item]
      exact h item hitem
  refine ⟨hmain data, ?_⟩
  rw [hmain]
  intro item hitem kv hkv
  rw [List.mem_singleton] at hitem
  subst hitem
  simp only [List.mem_cons, List.mem_singleton, List.not_mem_nil, or_false] at hkv
  rcases hkv with rfl | rfl <;> rfl

/-- Witness for C4: the concrete record of the claim normalizes away under
a concrete join. -/
theorem normalize_drops_empty_witness :
    normalize (fun _ u => u) none true
      [[(str "a", Val.vnull), (str "b", Val.vstr [])]] = [] :=
  (normalize_drops_empty (fun _ u => u) none true []).2

/-! ## Claim C5: idempotence of normalize

Supporting theory: fixed points of the cleaning pipeline. -/

/-- No character of `s` is a zero width character. -/
def NoZw (s : Str) : Prop := ∀ c ∈ s, isZeroWidth c = false

/-- No character of `s` is an apostrophe (so the line 109 replace cannot
fire: its pattern contains an apostrophe). -/
def NoApos (s : Str) : Prop := ∀ c ∈ s, c ≠ apos

/-- No character of `s` is whitespace. -/
def NoWs (s : Str) : Prop := ∀ c ∈ s, pyIsSpace c = false

instance (s : Str) : Decidable (NoZw s) := List.decidableBAll _ s

instance (s : Str) : Decidable (NoApos s) := List.decidableBAll _ s

instance (s : Str) : Decidable (NoWs s) := List.decidableBAll _ s

/-- Whitespace-free strings are untouched by the collapsing scan. -/
theorem collapseAux_of_noWs (b : Bool) (s : Str) (h : NoWs s) :
    collapseAux b s = s := by
  induction s generalizing b with
  | nil => rfl
  | cons c cs ih =>
    have hc : pyIsSpace c = false := h c (List.mem_cons_self c cs)
    rw [collapseAux, if_neg (by simp [hc])]
    rw [ih false (fun x hx => h x (List.mem_cons_of_mem c hx))]

/-- Characters of the collapsed string: a space or an input character. -/
theorem mem_collapseAux (b : Bool) (s : Str) (c : Char)
    (h : c ∈ collapseAux b s) : c = ' ' ∨ c ∈ s := by
  induction s generalizing b with
  | nil => cases h
  | cons d ds ih =>
    rw [collapseAux] at h
    by_cases hd : pyIsSpace d = true
    · rw [if_pos hd] at h
      cases b with
      | true =>
        rcases ih true h with h1 | h1
        · exact Or.inl h1
        · exact Or.inr (List.mem_cons_of_mem d h1)
      | false =>
        rcases List.mem_cons.mp h with h1 | h1
        · exact Or.inl h1
        · rcases ih true h1 with h2 | h2
          · exact Or.inl h2
          · exact Or.inr (List.mem_cons_of_mem d h2)
    · rw [if_neg hd] at h
      rcases List.mem_cons.mp h with h1 | h1
      · exact Or.inr (h1 ▸ List.mem_cons_self d ds)
      · rcases ih false h1 with h2 | h2
        · exact Or.inl h2
        · exact Or.inr (List.mem_cons_of_mem d h2)

/-- After a pending space the collapsed output starts with a non-space. -/
theorem head_collapseAux_true (s : Str) (c : Char)
    (h : (collapseAux true s).head? = some c) : pyIsSpace c = false := by
  induction s with
  | nil => cases h
  | cons d ds ih =>
    rw [collapseAux] at h
    by_cases hd : pyIsSpace d = true
    · rw [if_pos hd] at h
      exact ih h
    · rw [if_neg hd] at h
      rw [List.head?_cons] at h
      cases h
      simpa using hd

/-- The collapsed output never holds two adjacent whitespace characters. -/
theorem chain_collapseAux (b : Bool) (s : Str) :
    (collapseAux b s).Chain'
      (fun a c => ¬(pyIsSpace a = true ∧ pyIsSpace c = true)) := by
  induction s generalizing b with
  | nil => exact List.chain'_nil
  | cons d ds ih =>
    rw [collapseAux]
    by_cases hd : pyIsSpace d = true
    · rw [if_pos hd]
      cases b with
      | true => exact ih true
      | false =>
        rw [if_neg (by simp), List.chain'_cons']
        refine ⟨?_, ih true⟩
        intro y hy hcon
        exact absurd hcon.2 (by simp [head_collapseAux_true ds y hy])
    · rw [if_neg hd]
      rw [List.chain'_cons']
      refine ⟨?_, ih false⟩
      intro y _ hcon
      exact hd hcon.1

/-- Every whitespace character of the collapsed output is a plain space. -/
theorem wsSpace_collapseAux (b : Bool) (s : Str) (c : Char)
    (h : c ∈ collapseAux b s) (hws : pyIsSpace c = true) : c = ' ' := by
  induction s generalizing b with
  | nil => cases h
  | cons d ds ih =>
    rw [collapseAux] at h
    by_cases hd : pyIsSpace d = true
    · rw [if_pos hd] at h
      cases b with
      | true => exact ih true h
      | false =>
        rcases List.mem_cons.mp h with h1 | h1
        · exact h1
        · exact ih true h1
    · rw [if_neg hd] at h
      rcases List.mem_cons.mp h with h1 | h1
      · rw [h1] at hws
        exact absurd hws (by simp [hd])
      · exact ih false h1

/-- A string whose whitespace is single plain spaces is a collapsing fixed
point. -/
theorem collapseAux_fix (s : Str)
    (h1 : ∀ c ∈ s, pyIsSpace c = true → c = ' ')
    (h2 : s.Chain' (fun a c => ¬(pyIsSpace a = true ∧ pyIsSpace c = true))) :
    collapseAux false s = s := by
  induction s with
  | nil => rfl
  | cons d ds ih =>
    rw [collapseAux]
    by_cases hd : pyIsSpace d = true
    · rw [if_pos hd]
      have hds : collapseAux true ds = collapseAux false ds := by
        cases ds with
        | nil => rfl
        | cons e es =>
          have he : pyIsSpace e = false := by
            rcases List.chain'_cons.mp h2 with ⟨hrel, _⟩
            by_cases heb : pyIsSpace e = true
            · exact absurd ⟨hd, heb⟩ hrel
            · simpa using heb
          rw [collapseAux, if_neg (by simp [he]), collapseAux,
            if_neg (by simp [he])]
      rw [h1 d (List.mem_cons_self d ds) hd, hds,
        ih (fun c hc => h1 c (List.mem_cons_of_mem d hc)) h2.tail,
        if_neg (by simp)]
    · rw [if_neg hd,
        ih (fun c hc => h1 c (List.mem_cons_of_mem d hc)) h2.tail]

/-- Collapsing is idempotent. -/
theorem collapse_idem (s : Str) : collapse (collapse s) = collapse s :=
  collapseAux_fix _ (fun c hc => wsSpace_collapseAux false s c hc)
    (chain_collapseAux false s)

/-- A list whose head (if any) fails the predicate is untouched by
`dropWhile`. -/
theorem dropWhile_eq_self_of_head (p : Char → Bool) (l : Str)
    (h : ∀ c, l.head? = some c → p c = false) : l.dropWhile p = l := by
  cases l with
  | nil => rfl
  | cons c cs =>
    have := h c rfl
    rw [List.dropWhile_cons_of_neg (by simp [this])]

/-- Stripping keeps only input characters. -/
theorem mem_strip (s : Str) (c : Char) (h : c ∈ strip s) : c ∈ s := by
  rw [strip] at h
  rw [List.mem_reverse] at h
  have h1 := List.dropWhile_subset (l := (s.dropWhile pyIsSpace).reverse) pyIsSpace h
  rw [List.mem_reverse] at h1
  exact List.dropWhile_subset pyIsSpace h1

/-- The head of a stripped string is not whitespace. -/
theorem head_strip (s : Str) (c : Char) (h : (strip s).head? = some c) :
    pyIsSpace c = false := by
  rw [strip] at h
  set A := s.dropWhile pyIsSpace with hA
  set B := A.reverse.dropWhile pyIsSpace with hB
  have hsuf : B <:+ A.reverse := List.dropWhile_suffix pyIsSpace
  obtain ⟨t, ht⟩ := hsuf
  have hBrev : B.reverse <+: A := by
    have := congrArg List.reverse ht
    rw [List.reverse_append, List.reverse_reverse] at this
    exact ⟨t.reverse, this⟩
  obtain ⟨u, hu⟩ := hBrev
  cases hrev : B.reverse with
  | nil => rw [hrev] at h; cases h
  | cons d ds =>
    rw [hrev] at h
    rw [List.head?_cons] at h
    cases h
    have hAhead : A.head? = some c := by
      rw [← hu, hrev]
      rfl
    cases hAcase : A with
    | nil => rw [hAcase] at hAhead; cases hAhead
    | cons e es =>
      rw [hAcase, List.head?_cons] at hAhead
      cases hAhead
      have : ¬pyIsSpace c = true := by
        intro hcon
        have hd := List.head?_dropWhile_not pyIsSpace s
        rw [← hA, hAcase, List.head?_cons] at hd
        simp [hcon] at hd
      simpa using this

/-- The last character of a stripped string is not whitespace. -/
theorem getLast_strip (s : Str) (c : Char) (h : (strip s).getLast? = some c) :
    pyIsSpace c = false := by
  rw [strip] at h
  rw [List.getLast?_reverse] at h
  have hd := List.head?_dropWhile_not pyIsSpace (s.dropWhile pyIsSpace).reverse
  rw [h] at hd
  simpa using hd

/-- A string whose head and last characters are not whitespace is a strip
fixed point. -/
theorem strip_eq_self (l : Str)
    (h1 : ∀ c, l.head? = some c → pyIsSpace c = false)
    (h2 : ∀ c, l.getLast? = some c → pyIsSpace c = false) : strip l = l := by
  rw [strip, dropWhile_eq_self_of_head pyIsSpace l h1,
    dropWhile_eq_self_of_head pyIsSpace l.reverse
      (fun c hc => h2 c
        (by rw [← List.reverse_reverse l, List.getLast?_reverse]; exact hc)),
    List.reverse_reverse]

/-- The collapsed string of a string with a non-whitespace head keeps a
non-whitespace head. -/
theorem head_collapse (x : Str)
    (h : ∀ c, x.head? = some c → pyIsSpace c = false) :
    ∀ c, (collapse x).head? = some c → pyIsSpace c = false := by
  intro c hc
  cases x with
  | nil => cases hc
  | cons d ds =>
    have hd := h d rfl
    rw [collapse, collapseAux, if_neg (by simp [hd]), List.head?_cons] at hc
    cases hc
    exact hd

/-- The empty collapse with a pending space means an all-whitespace input. -/
theorem collapseAux_true_eq_nil (x : Str) (h : collapseAux true x = []) :
    ∀ c ∈ x, pyIsSpace c = true := by
  induction x with
  | nil => intro c hc; cases hc
  | cons d ds ih =>
    rw [collapseAux] at h
    by_cases hd : pyIsSpace d = true
    · rw [if_pos hd, if_pos rfl] at h
      intro c hc
      rcases List.mem_cons.mp hc with rfl | hc
      · exact hd
      · exact ih h c hc
    · rw [if_neg hd] at h
      cases h

/-- Collapsing with no pending space is empty only on the empty input. -/
theorem collapseAux_false_eq_nil (x : Str) (h : collapseAux false x = []) :
    x = [] := by
  cases x with
  | nil => rfl
  | cons d ds =>
    rw [collapseAux] at h
    by_cases hd : pyIsSpace d = true
    · rw [if_pos hd, if_neg (by simp)] at h
      cases h
    · rw [if_neg hd] at h
      cases h

/-- Any nonempty list has a last element. -/
theorem exists_getLast? (l : Str) (h : l ≠ []) : ∃ c, l.getLast? = some c := by
  cases hl : l.getLast? with
  | some c => exact ⟨c, rfl⟩
  | none =>
    rw [List.getLast?_eq_none_iff] at hl
    exact absurd hl h

/-- A whitespace last character of the collapsed output reflects a
whitespace last character of the input. -/
theorem getLast_collapseAux (x : Str) : ∀ (b : Bool) (c : Char),
    (collapseAux b x).getLast? = some c → pyIsSpace c = true →
    ∃ d, x.getLast? = some d ∧ pyIsSpace d = true := by
  induction x with
  | nil => intro b c h _; cases h
  | cons e es ih =>
    intro b c h hws
    have hlift : (∃ d, es.getLast? = some d ∧ pyIsSpace d = true) →
        ∃ d, (e :: es).getLast? = some d ∧ pyIsSpace d = true := by
      rintro ⟨d, hd, hdw⟩
      refine ⟨d, ?_, hdw⟩
      cases es with
      | nil => cases hd
      | cons f fs => rw [List.getLast?_cons_cons]; exact hd
    rw [collapseAux] at h
    by_cases he : pyIsSpace e = true
    · rw [if_pos he] at h
      cases b with
      | true => exact hlift (ih true c h hws)
      | false =>
        rw [if_neg (by simp)] at h
        cases ht : collapseAux true es with
        | nil =>
          rw [ht] at h
          cases h
          cases hes : es with
          | nil => exact ⟨e, rfl, he⟩
          | cons f fs =>
            rw [hes] at ht
            obtain ⟨d, hd⟩ := exists_getLast? (f :: fs) (by simp)
            refine ⟨d, ?_, ?_⟩
            · rw [List.getLast?_cons_cons]
              exact hd
            · have hmem : d ∈ f :: fs :=
                List.mem_of_mem_getLast? (Option.mem_def.mpr hd)
              exact collapseAux_true_eq_nil (f :: fs) ht d hmem
        | cons u us =>
          rw [ht] at h
          rw [List.getLast?_cons_cons] at h
          rw [← ht] at h
          exact hlift (ih true c h hws)
    · rw [if_neg he] at h
      cases ht : collapseAux false es with
      | nil =>
        rw [ht] at h
        cases h
        rw [collapseAux_false_eq_nil es ht]
        exact absurd hws (by simp [he])
      | cons u us =>
        rw [ht] at h
        rw [List.getLast?_cons_cons] at h
        rw [← ht] at h
        exact hlift (ih false c h hws)

/-- The empty-input behavior of the fueled replace scan. -/
theorem replaceAllFuel_nil (pat rep : Str) (f : ℕ) :
    replaceAllFuel pat rep f [] = [] := by
  cases f <;> rfl

/-- Replacing a single character by itself changes nothing. -/
theorem replaceAll_self_single (c : Char) (s : Str) :
    replaceAll [c] [c] s = s := by
  have key : ∀ (f : ℕ) (t : Str), t.length ≤ f →
      replaceAllFuel [c] [c] f t = t := by
    intro f
    induction f with
    | zero =>
      intro t ht
      rw [List.length_eq_zero.mp (Nat.le_zero.mp ht)]
      rfl
    | succ g ih =>
      intro t ht
      cases t with
      | nil => rfl
      | cons a as =>
        rw [replaceAllFuel]
        by_cases hpre : ([c] : Str) ≠ [] ∧ ([c] : Str).isPrefixOf (a :: as)
        · rw [if_pos hpre]
          have hca : c = a := by
            have := hpre.2
            rw [isPrefixOf_eq_true] at this
            obtain ⟨u, hu⟩ := this
            exact (List.cons.inj hu).1
          rw [List.length_cons] at ht
          have hdrop : List.drop ([c] : Str).length (a :: as) = as := by simp
          rw [hdrop, ih as (by omega), hca]
          rfl
        · rw [if_neg hpre]
          rw [List.length_cons] at ht
          rw [ih as (by omega)]
  exact key s.length s le_rfl

/-- A replace whose pattern holds a character absent from the input never
fires. -/
theorem replaceAll_of_not_mem (pat rep s : Str) (a : Char) (ha : a ∈ pat)
    (hs : ∀ x ∈ s, x ≠ a) : replaceAll pat rep s = s := by
  have key : ∀ (f : ℕ) (t : Str), t.length ≤ f → (∀ x ∈ t, x ≠ a) →
      replaceAllFuel pat rep f t = t := by
    intro f
    induction f with
    | zero =>
      intro t ht _
      rw [List.length_eq_zero.mp (Nat.le_zero.mp ht)]
      rfl
    | succ g ih =>
      intro t ht hta
      cases t with
      | nil => rfl
      | cons x xs =>
        rw [replaceAllFuel]
        have hnot : ¬(pat ≠ [] ∧ pat.isPrefixOf (x :: xs)) := by
          rintro ⟨-, hpre⟩
          rw [isPrefixOf_eq_true] at hpre
          exact hta a (hpre.subset ha) rfl
        rw [if_neg hnot]
        rw [List.length_cons] at ht
        rw [ih xs (by omega) (fun y hy => hta y (List.mem_cons_of_mem x hy))]
  exact key s.length s le_rfl hs

/-- Zero width removal keeps only input characters. -/
theorem mem_removeZeroWidth (x : Str) (c : Char) (h : c ∈ removeZeroWidth x) :
    c ∈ x :=
  (List.mem_filter.mp h).1

/-- Zero width removal leaves no zero width characters. -/
theorem zw_removeZeroWidth (x : Str) (c : Char) (h : c ∈ removeZeroWidth x) :
    isZeroWidth c = false := by
  have := (List.mem_filter.mp h).2
  simpa using this

/-- Characters of the cleaning core are spaces or input characters. -/
theorem mem_cleanCore (s : Str) (c : Char)
    (h : c ∈ removeZeroWidth (collapse (strip s))) : c = ' ' ∨ c ∈ s := by
  rcases mem_collapseAux false (strip s) c (mem_removeZeroWidth _ c h) with h1 | h1
  · exact Or.inl h1
  · exact Or.inr (mem_strip s c h1)

/-- Under `NoApos` the two double-quote replaces and the line 109 replace
are the identity, so `_clean_text` is strip, collapse and zero width
removal. -/
theorem clean_eq_core (s : Str) (h : NoApos s) :
    cleanNorm s = removeZeroWidth (collapse (strip s)) := by
  by_cases hs : s = []
  · subst hs
    rfl
  · rw [cleanNorm, if_neg hs]
    have hcore : NoApos (removeZeroWidth (collapse (strip s))) := by
      intro c hc
      rcases mem_cleanCore s c hc with rfl | h1
      · decide
      · exact h c h1
    dsimp only
    rw [replaceAll_self_single, replaceAll_self_single]
    exact replaceAll_of_not_mem needle [apos]
      (removeZeroWidth (collapse (strip s))) apos (by decide) hcore

/-- Cleaning preserves `NoApos`. -/
theorem noApos_clean (s : Str) (h : NoApos s) : NoApos (cleanNorm s) := by
  rw [clean_eq_core s h]
  intro c hc
  rcases mem_cleanCore s c hc with rfl | h1
  · decide
  · exact h c h1

/-- Cleaning output has no zero width characters. -/
theorem noZw_clean (s : Str) (h : NoApos s) : NoZw (cleanNorm s) := by
  rw [clean_eq_core s h]
  intro c hc
  exact zw_removeZeroWidth _ c hc

/-- Under `NoZw` the zero width removal inside cleaning is the identity. -/
theorem clean_eq_collapse_strip (s : Str) (hz : NoZw s) (ha : NoApos s) :
    cleanNorm s = collapse (strip s) := by
  rw [clean_eq_core s ha]
  apply List.filter_eq_self.mpr
  intro c hc
  rcases mem_collapseAux false (strip s) c hc with rfl | h1
  · decide
  · simp [hz c (mem_strip s c h1)]

/-- C5 key lemma: on zero-width-free, apostrophe-free strings the
normalizer cleaning is idempotent. -/
theorem clean_idem (s : Str) (hz : NoZw s) (ha : NoApos s) :
    cleanNorm (cleanNorm s) = cleanNorm s := by
  have hX : cleanNorm s = collapse (strip s) := clean_eq_collapse_strip s hz ha
  have haX : NoApos (cleanNorm s) := noApos_clean s ha
  have hzX : NoZw (cleanNorm s) := noZw_clean s ha
  rw [clean_eq_collapse_strip _ hzX haX]
  have hstrip : strip (cleanNorm s) = cleanNorm s := by
    apply strip_eq_self
    · intro c hc
      rw [hX] at hc
      exact head_collapse (strip s) (fun d hd => head_strip s d hd) c hc
    · intro c hc
      rw [hX] at hc
      by_cases hw : pyIsSpace c = true
      · obtain ⟨d, hd, hdw⟩ := getLast_collapseAux (strip s) false c hc hw
        rw [getLast_strip s d hd] at hdw
        cases hdw
      · simpa using hw
  rw [hstrip, hX, collapse_idem]

/-- Cleaning a whitespace-free, zero-width-free, apostrophe-free string
changes nothing. -/
theorem clean_of_nf (u : Str) (hw : NoWs u) (hz : NoZw u) (ha : NoApos u) :
    cleanNorm u = u := by
  rw [clean_eq_collapse_strip u hz ha]
  have hstrip : strip u = u := by
    apply strip_eq_self
    · intro c hc
      exact hw c (List.mem_of_mem_head? (Option.mem_def.mpr hc))
    · intro c hc
      exact hw c (List.mem_of_mem_getLast? (Option.mem_def.mpr hc))
  rw [hstrip]
  exact collapseAux_of_noWs false u hw

/-- Collapsing walks over a whitespace-free prefix unchanged. -/
theorem collapseAux_false_append (p x : Str) (hp : NoWs p) :
    collapseAux false (p ++ x) = p ++ collapseAux false x := by
  induction p with
  | nil => rfl
  | cons c cs ih =>
    have hc : pyIsSpace c = false := hp c (List.mem_cons_self c cs)
    rw [List.cons_append, collapseAux, if_neg (by simp [hc]),
      ih (fun d hd => hp d (List.mem_cons_of_mem c hd))]
    rfl

/-- Stripping a string with a whitespace-free nonempty prefix keeps the
prefix. -/
theorem stripKeepsLead (p t : Str) (hp0 : p ≠ []) (hp : NoWs p) :
    ∃ t2, strip (p ++ t) = p ++ t2 := by
  have hdrop1 : (p ++ t).dropWhile pyIsSpace = p ++ t := by
    apply dropWhile_eq_self_of_head
    intro c hc
    cases p with
    | nil => exact absurd rfl hp0
    | cons d ds =>
      rw [List.cons_append, List.head?_cons] at hc
      cases hc
      exact hp c (List.mem_cons_self c ds)
  rw [strip, hdrop1, List.reverse_append]
  rw [List.dropWhile_append]
  by_cases hemp : (t.reverse.dropWhile pyIsSpace).isEmpty = true
  · rw [if_pos hemp]
    have hpfix : p.reverse.dropWhile pyIsSpace = p.reverse := by
      apply dropWhile_eq_self_of_head
      intro c hc
      have : c ∈ p.reverse := List.mem_of_mem_head? (Option.mem_def.mpr hc)
      exact hp c (List.mem_reverse.mp this)
    rw [hpfix, List.reverse_reverse]
    exact ⟨[], by rw [List.append_nil]⟩
  · rw [if_neg hemp]
    refine ⟨(t.reverse.dropWhile pyIsSpace).reverse, ?_⟩
    rw [List.reverse_append, List.reverse_reverse]

/-- The cleaning pipeline keeps a whitespace-free, zero-width-free prefix
(under `NoApos`, when the replaces are inert). -/
theorem prefix_clean (p s : Str) (hp0 : p ≠ [])
    (hchar : ∀ c ∈ p, pyIsSpace c = false ∧ isZeroWidth c = false)
    (hpre : p.isPrefixOf s = true) (hz : NoZw s) (ha : NoApos s) :
    p.isPrefixOf (cleanNorm s) = true := by
  rw [clean_eq_collapse_strip s hz ha]
  obtain ⟨t, rfl⟩ := (isPrefixOf_eq_true _ _).mp hpre
  obtain ⟨t2, ht2⟩ :=
    stripKeepsLead p t hp0 (fun c hc => (hchar c hc).1)
  rw [ht2, collapse,
    collapseAux_false_append p t2 (fun c hc => (hchar c hc).1)]
  exact (isPrefixOf_eq_true _ _).mpr (List.prefix_append p _)

/-- A value already carrying one of the four schemes `_resolve_url` leaves
alone. -/
def hasAbsPrefix (s : Str) : Prop :=
  (str "http://").isPrefixOf s = true ∨ (str "https://").isPrefixOf s = true ∨
  (str "data:").isPrefixOf s = true ∨ (str "javascript:").isPrefixOf s = true

instance (s : Str) : Decidable (hasAbsPrefix s) := by
  unfold hasAbsPrefix
  infer_instance

/-- Cleaning keeps the four absolute-scheme prefixes. -/
theorem hasAbsPrefix_clean (s : Str) (h : hasAbsPrefix s) (hz : NoZw s)
    (ha : NoApos s) : hasAbsPrefix (cleanNorm s) := by
  rcases h with h | h | h | h
  · exact Or.inl (prefix_clean _ s (by decide) (by decide) h hz ha)
  · exact Or.inr (Or.inl (prefix_clean _ s (by decide) (by decide) h hz ha))
  · exact Or.inr (Or.inr (Or.inl
      (prefix_clean _ s (by decide) (by decide) h hz ha)))
  · exact Or.inr (Or.inr (Or.inr
      (prefix_clean _ s (by decide) (by decide) h hz ha)))

/-- Source `_resolve_url` keeps absolute values. -/
theorem resolve_id_of_abs (join : Str → Str → Str) (base : Option Str)
    (u : Str) (h : hasAbsPrefix u) : resolveUrl join base u = u := by
  rcases h with h | h | h | h <;> simp [resolveUrl, h]

/-- Source `_resolve_url` without a base URL is the identity. -/
theorem resolve_id_none (join : Str → Str → Str) (u : Str) :
    resolveUrl join none u = u := by
  rw [resolveUrl]
  split <;> rfl

/-- Source `_resolve_url` with an empty (falsy) base URL is the identity. -/
theorem resolve_id_some_nil (join : Str → Str → Str) (u : Str) :
    resolveUrl join (some []) u = u := by
  rw [resolveUrl]
  split
  · rfl
  · rw [if_pos rfl]

/-- Price normalization output is whitespace free. -/
theorem noWs_price (u : Str) : NoWs (normalizePrice u) := by
  intro c hc
  have := (List.mem_filter.mp hc).2
  simpa using this

/-- Price normalization keeps only input characters. -/
theorem mem_price (u : Str) (c : Char) (h : c ∈ normalizePrice u) : c ∈ u :=
  (List.mem_filter.mp h).1

/-- Price normalization is idempotent. -/
theorem price_idem (u : Str) :
    normalizePrice (normalizePrice u) = normalizePrice u := by
  apply List.filter_eq_self.mpr
  intro c hc
  simp [noWs_price u c hc]

/-- Price normalization walks over a whitespace-free prefix. -/
theorem price_append (p x : Str) (hp : NoWs p) :
    normalizePrice (p ++ x) = p ++ normalizePrice x := by
  rw [normalizePrice, List.filter_append]
  rw [List.filter_eq_self.mpr (fun c hc => by simp [hp c hc])]
  rfl

/-- Price normalization keeps the four absolute-scheme prefixes. -/
theorem hasAbsPrefix_price (u : Str) (h : hasAbsPrefix u) :
    hasAbsPrefix (normalizePrice u) := by
  rcases h with h | h | h | h
  · obtain ⟨t, rfl⟩ := (isPrefixOf_eq_true _ _).mp h
    exact Or.inl (by
      rw [price_append _ t (by decide)]
      exact (isPrefixOf_eq_true _ _).mpr (List.prefix_append _ _))
  · obtain ⟨t, rfl⟩ := (isPrefixOf_eq_true _ _).mp h
    exact Or.inr (Or.inl (by
      rw [price_append _ t (by decide)]
      exact (isPrefixOf_eq_true _ _).mpr (List.prefix_append _ _)))
  · obtain ⟨t, rfl⟩ := (isPrefixOf_eq_true _ _).mp h
    exact Or.inr (Or.inr (Or.inl (by
      rw [price_append _ t (by decide)]
      exact (isPrefixOf_eq_true _ _).mpr (List.prefix_append _ _))))
  · obtain ⟨t, rfl⟩ := (isPrefixOf_eq_true _ _).mp h
    exact Or.inr (Or.inr (Or.inr (by
      rw [price_append _ t (by decide)]
      exact (isPrefixOf_eq_true _ _).mpr (List.prefix_append _ _))))

/-- Values on which one pass of per-value normalization is stable: strings
without zero width characters or apostrophes whose URL-field resolution is
inert, recursively through lists. -/
inductive GoodVal (base : Option Str) (key : Str) : Val → Prop where
  | null : GoodVal base key .vnull
  | strv (s : Str) (hz : NoZw s) (ha : NoApos s)
      (hu : isUrlField key = true →
        base = none ∨ base = some [] ∨ hasAbsPrefix s) :
      GoodVal base key (.vstr s)
  | listv (l : List Val) (h : ∀ v ∈ l, GoodVal base key v) :
      GoodVal base key (.vlist l)

/-- The string case of `_normalize_value`, with the URL resolution shown
inert on good values. -/
theorem normalizeValue_str (join : Str → Str → Str) (base : Option Str)
    (key : Str) (s : Str) (hz : NoZw s) (ha : NoApos s)
    (hu : isUrlField key = true → base = none ∨ base = some [] ∨ hasAbsPrefix s) :
    normalizeValue join base key (.vstr s) =
      .vstr (if (isPriceField key && !(cleanNorm s).isEmpty) = true then
        normalizePrice (cleanNorm s) else cleanNorm s) := by
  rw [normalizeValue]
  have hv2 : (if (isUrlField key && !(cleanNorm s).isEmpty) = true then
      resolveUrl join base (cleanNorm s) else cleanNorm s) = cleanNorm s := by
    by_cases hc : (isUrlField key && !(cleanNorm s).isEmpty) = true
    · rw [if_pos hc]
      rcases hu (by simpa using (Bool.and_eq_true .. ▸ hc).1) with hb | hb | hb
      · rw [hb]
        exact resolve_id_none join _
      · rw [hb]
        exact resolve_id_some_nil join _
      · exact resolve_id_of_abs join base _ (hasAbsPrefix_clean s hb hz ha)
    · rw [if_neg hc]
  rw [hv2]

/-- Per-value normalization never turns a non-null value into null. -/
theorem normalizeValue_ne_null (join : Str → Str → Str) (base : Option Str)
    (key : Str) (v : Val) (h : v ≠ .vnull) :
    normalizeValue join base key v ≠ .vnull := by
  cases v with
  | vnull => exact absurd rfl h
  | vstr s =>
    rw [normalizeValue]
    intro hcon
    cases hcon
  | vlist l =>
    rw [normalizeValue]
    intro hcon
    cases hcon

/-- C5 value-level idempotence on good values. -/
theorem normalizeValue_idem (join : Str → Str → Str) (base : Option Str)
    (key : Str) (v : Val) (hv : GoodVal base key v) :
    normalizeValue join base key (normalizeValue join base key v) =
      normalizeValue join base key v := by
  induction hv with
  | null => rfl
  | strv s hz ha hu =>
    rw [normalizeValue_str join base key s hz ha hu]
    by_cases hpc : (isPriceField key && !(cleanNorm s).isEmpty) = true
    · rw [if_pos hpc]
      set u := normalizePrice (cleanNorm s) with hudef
      have hzu : NoZw u := fun c hc => noZw_clean s ha c (mem_price _ c hc)
      have hau : NoApos u := fun c hc => noApos_clean s ha c (mem_price _ c hc)
      have huu : isUrlField key = true →
          base = none ∨ base = some [] ∨ hasAbsPrefix u := by
        intro hurl
        rcases hu hurl with hb | hb | hb
        · exact Or.inl hb
        · exact Or.inr (Or.inl hb)
        · exact Or.inr (Or.inr
            (hasAbsPrefix_price _ (hasAbsPrefix_clean s hb hz ha)))
      rw [normalizeValue_str join base key u hzu hau huu]
      have hcu : cleanNorm u = u :=
        clean_of_nf u (noWs_price _) hzu hau
      rw [hcu]
      by_cases hq : (isPriceField key && !u.isEmpty) = true
      · rw [if_pos hq, hudef, price_idem]
      · rw [if_neg hq]
    · rw [if_neg hpc]
      set w := cleanNorm s with hwdef
      have hzw : NoZw w := noZw_clean s ha
      have haw : NoApos w := noApos_clean s ha
      have huw : isUrlField key = true →
          base = none ∨ base = some [] ∨ hasAbsPrefix w := by
        intro hurl
        rcases hu hurl with hb | hb | hb
        · exact Or.inl hb
        · exact Or.inr (Or.inl hb)
        · exact Or.inr (Or.inr (hasAbsPrefix_clean s hb hz ha))
      rw [normalizeValue_str join base key w hzw haw huw]
      have hcw : cleanNorm w = w := by
        rw [hwdef]
        exact clean_idem s hz ha
      rw [hcw]
      have hq : ¬(isPriceField key && !w.isEmpty) = true := hpc
      rw [if_neg hq]
  | listv l hl ih =>
    have hlist : ∀ m : List Val, (∀ v ∈ m, GoodVal base key v) →
        (∀ v (hm : v ∈ m),
          normalizeValue join base key (normalizeValue join base key v) =
            normalizeValue join base key v) →
        normalizeValueList join base key (normalizeValueList join base key m) =
          normalizeValueList join base key m := by
      intro m
      induction m with
      | nil => intro _ _; rfl
      | cons v r ihm =>
        intro hgood hidem
        rw [normalizeValueList]
        by_cases hv : v = .vnull
        · rw [if_pos hv]
          exact ihm (fun x hx => hgood x (List.mem_cons_of_mem v hx))
            (fun x hx => hidem x (List.mem_cons_of_mem v hx))
        · rw [if_neg hv, normalizeValueList,
            if_neg (normalizeValue_ne_null join base key v hv),
            hidem v (List.mem_cons_self v r),
            ihm (fun x hx => hgood x (List.mem_cons_of_mem v hx))
              (fun x hx => hidem x (List.mem_cons_of_mem v hx))]
    rw [normalizeValue]
    rw [normalizeValue]
    rw [hlist l hl ih]

/-- Distinct keys in a record (automatic for a Python dict). -/
def keysNodup (item : Record) : Prop := (item.map Prod.fst).Nodup

instance (item : Record) : Decidable (keysNodup item) :=
  inferInstanceAs (Decidable ((item.map Prod.fst).Nodup))

/-- Inserting a fresh key appends. -/
theorem dictInsert_not_mem (k : Str) (v : Val) (acc : Record)
    (h : k ∉ acc.map Prod.fst) : dictInsert k v acc = acc ++ [(k, v)] := by
  induction acc with
  | nil => rfl
  | cons kv r ih =>
    obtain ⟨k₁, v₁⟩ := kv
    rw [List.map_cons, List.mem_cons] at h
    push_neg at h
    rw [dictInsert, if_neg (fun hc => h.1 hc.symm),
      ih h.2, List.cons_append]

/-- The dict built by `_normalize_item` over distinct keys is the value-wise
map of the record. -/
theorem foldl_dictInsert (g : Str → Val → Val) :
    ∀ (item acc : Record), keysNodup item →
      (∀ kv ∈ item, kv.1 ∉ acc.map Prod.fst) →
      item.foldl (fun a kv => dictInsert kv.1 (g kv.1 kv.2) a) acc =
        acc ++ item.map (fun kv => (kv.1, g kv.1 kv.2)) := by
  intro item
  induction item with
  | nil =>
    intro acc _ _
    rw [List.foldl_nil, List.map_nil, List.append_nil]
  | cons kv rest ih =>
    intro acc hnd hfresh
    rw [List.foldl_cons,
      dictInsert_not_mem kv.1 _ acc (hfresh kv (List.mem_cons_self kv rest))]
    have hnd' : keysNodup rest := by
      rw [keysNodup, List.map_cons, List.nodup_cons] at hnd
      exact hnd.2
    have hhead : kv.1 ∉ rest.map Prod.fst := by
      rw [keysNodup, List.map_cons, List.nodup_cons] at hnd
      exact hnd.1
    have hfresh' : ∀ kv2 ∈ rest,
        kv2.1 ∉ (acc ++ [(kv.1, g kv.1 kv.2)]).map Prod.fst := by
      intro kv2 h2
      rw [List.map_append, List.mem_append]
      rintro (hc | hc)
      · exact hfresh kv2 (List.mem_cons_of_mem kv h2) hc
      · rw [List.map_cons, List.map_nil, List.mem_singleton] at hc
        exact hhead (hc ▸ List.mem_map_of_mem Prod.fst h2)
    rw [ih (acc ++ [(kv.1, g kv.1 kv.2)]) hnd' hfresh',
      List.append_assoc, List.singleton_append, List.map_cons]

/-- Source `_normalize_item` over distinct keys: the mapped record when some value
has content, else `None`. -/
theorem normalizeItem_result (join : Str → Str → Str) (base : Option Str)
    (item : Record) (hk : keysNodup item) :
    normalizeItem join base item =
      if item.any (fun kv => hasSignal (normalizeValue join base kv.1 kv.2)) then
        some (item.map
          (fun kv => (kv.1, normalizeValue join base kv.1 kv.2)))
      else none := by
  rw [normalizeItem,
    foldl_dictInsert (fun k v => normalizeValue join base k v) item [] hk
      (by intro kv _; rw [List.map_nil]; exact List.not_mem_nil _)]
  rfl

/-- Boolean `any` respects pointwise agreement on members. -/
theorem any_congr_mem {α : Type} (l : List α) (p q : α → Bool)
    (h : ∀ x ∈ l, p x = q x) : l.any p = l.any q := by
  induction l with
  | nil => rfl
  | cons x xs ih =>
    rw [List.any_cons, List.any_cons, h x (List.mem_cons_self x xs),
      ih (fun y hy => h y (List.mem_cons_of_mem x hy))]

/-- One pass of `_normalize_item` on a good record is a fixed point of a
second pass. -/
theorem normalizeItem_idem (join : Str → Str → Str) (base : Option Str)
    (item res : Record) (hk : keysNodup item)
    (hg : ∀ kv ∈ item, GoodVal base kv.1 kv.2)
    (h : normalizeItem join base item = some res) :
    normalizeItem join base res = some res := by
  rw [normalizeItem_result join base item hk] at h
  by_cases hany : item.any
      (fun kv => hasSignal (normalizeValue join base kv.1 kv.2)) = true
  · rw [if_pos hany] at h
    have hres : res = item.map
        (fun kv => (kv.1, normalizeValue join base kv.1 kv.2)) :=
      (Option.some.inj h).symm
    have hkres : keysNodup res := by
      rw [hres, keysNodup, List.map_map]
      exact hk
    rw [normalizeItem_result join base res hkres]
    have hmap : res.map
        (fun kv => (kv.1, normalizeValue join base kv.1 kv.2)) = res := by
      rw [hres, List.map_map]
      apply List.map_congr_left
      intro kv hkv
      simp only [Function.comp_apply]
      rw [normalizeValue_idem join base kv.1 kv.2 (hg kv hkv)]
    have hany2 : res.any
        (fun kv => hasSignal (normalizeValue join base kv.1 kv.2)) = true := by
      rw [hres, List.any_map]
      rw [any_congr_mem item _ _
        (fun kv hkv => by
          simp only [Function.comp_apply]
          rw [normalizeValue_idem join base kv.1 kv.2 (hg kv hkv)])]
      exact hany
    rw [if_pos hany2, hmap]
  · rw [if_neg hany] at h
    cases h

/-- Deduplication only keeps input records. -/
theorem mem_removeDuplicatesGo (l : List Record) :
    ∀ (seen : List Record) (x : Record),
      x ∈ removeDuplicatesGo seen l → x ∈ l := by
  induction l with
  | nil => intro seen x h; cases h
  | cons item rest ih =>
    intro seen x h
    rw [removeDuplicatesGo] at h
    by_cases hm : hashItem item ∈ seen
    · rw [if_pos hm] at h
      exact List.mem_cons_of_mem item (ih seen x h)
    · rw [if_neg hm] at h
      rcases List.mem_cons.mp h with rfl | h1
      · exact List.mem_cons_self x rest
      · exact List.mem_cons_of_mem item (ih _ x h1)

/-- The dedup output avoids the seen set and has pairwise distinct
digests. -/
theorem removeDuplicatesGo_props (l : List Record) :
    ∀ seen : List Record,
      (∀ x ∈ removeDuplicatesGo seen l, hashItem x ∉ seen) ∧
      ((removeDuplicatesGo seen l).map hashItem).Nodup := by
  induction l with
  | nil =>
    intro seen
    exact ⟨fun x h => absurd h (List.not_mem_nil x), List.nodup_nil⟩
  | cons item rest ih =>
    intro seen
    rw [removeDuplicatesGo]
    by_cases hm : hashItem item ∈ seen
    · rw [if_pos hm]
      exact ih seen
    · rw [if_neg hm]
      constructor
      · intro x hx
        rcases List.mem_cons.mp hx with rfl | h1
        · exact hm
        · intro hc
          exact (ih (hashItem item :: seen)).1 x h1
            (List.mem_cons_of_mem _ hc)
      · rw [List.map_cons, List.nodup_cons]
        constructor
        · intro hc
          obtain ⟨y, hy, hyh⟩ := List.mem_map.mp hc
          exact (ih (hashItem item :: seen)).1 y hy
            (hyh ▸ List.mem_cons_self _ _)
        · exact (ih (hashItem item :: seen)).2

/-- A digest-distinct list disjoint from the seen set passes dedup
unchanged. -/
theorem removeDuplicatesGo_fix (l : List Record) :
    ∀ seen : List Record, (∀ x ∈ l, hashItem x ∉ seen) →
      (l.map hashItem).Nodup → removeDuplicatesGo seen l = l := by
  induction l with
  | nil => intro _ _ _; rfl
  | cons item rest ih =>
    intro seen hdis hnd
    rw [removeDuplicatesGo,
      if_neg (hdis item (List.mem_cons_self item rest))]
    rw [List.map_cons, List.nodup_cons] at hnd
    have hdis' : ∀ x ∈ rest, hashItem x ∉ hashItem item :: seen := by
      intro x hx
      rw [List.mem_cons]
      rintro (hc | hc)
      · exact hnd.1 (hc ▸ List.mem_map_of_mem hashItem hx)
      · exact hdis x (List.mem_cons_of_mem item hx) hc
    rw [ih (hashItem item :: seen) hdis' hnd.2]

/-- Source `_remove_duplicates` is idempotent. -/
theorem remove_duplicates_idem (l : List Record) :
    remove_duplicates (remove_duplicates l) = remove_duplicates l :=
  removeDuplicatesGo_fix _ []
    (fun x _ => List.not_mem_nil (hashItem x))
    (removeDuplicatesGo_props l []).2

/-- Source `filterMap` by a function fixing every member is the identity. -/
theorem filterMap_id_of_mem {α : Type} (l : List α) (f : α → Option α)
    (h : ∀ x ∈ l, f x = some x) : l.filterMap f = l := by
  induction l with
  | nil => rfl
  | cons x xs ih =>
    rw [List.filterMap_cons, h x (List.mem_cons_self x xs),
      ih (fun y hy => h y (List.mem_cons_of_mem x hy))]

/-- C5 amended: with dedupe enabled, `normalize` is idempotent on record
lists whose records have duplicate-free keys and whose string values hold
no zero width characters and no apostrophes, with every URL-named field
either already absolute (http, https, data or javascript scheme) or the
base URL unset or empty.  (In general the claim fails: the cleaning removes
zero width characters after collapsing whitespace, so a second pass can
collapse the newly adjacent spaces; and line 109 of the source replaces a
pattern containing an apostrophe so a replacement can create a new
occurrence.) -/
theorem normalize_idempotent_amended (join : Str → Str → Str)
    (base : Option Str) (data : List Record)
    (hg : ∀ item ∈ data,
      keysNodup item ∧ ∀ kv ∈ item, GoodVal base kv.1 kv.2) :
    normalize join base true (normalize join base true data) =
      normalize join base true data := by
  have hFM : ∀ x ∈ data.filterMap (normalizeItem join base),
      normalizeItem join base x = some x := by
    intro x hx
    obtain ⟨item, hitem, hni⟩ := List.mem_filterMap.mp hx
    exact normalizeItem_idem join base item x (hg item hitem).1
      (hg item hitem).2 hni
  have hM : ∀ x ∈ remove_duplicates
      (data.filterMap (normalizeItem join base)),
      normalizeItem join base x = some x :=
    fun x hx => hFM x (mem_removeDuplicatesGo _ [] x hx)
  calc normalize join base true (normalize join base true data)
      = remove_duplicates
          ((remove_duplicates (data.filterMap (normalizeItem join base))).filterMap
            (normalizeItem join base)) := rfl
    _ = remove_duplicates
          (remove_duplicates (data.filterMap (normalizeItem join base))) := by
        rw [filterMap_id_of_mem _ _ hM]
    _ = remove_duplicates (data.filterMap (normalizeItem join base)) :=
        remove_duplicates_idem _
    _ = normalize join base true data := rfl

/-- The zero width space. -/
def zwChar : Char := Char.ofNat 0x200B

/-- C5 counterexample: one record whose value holds a zero width space
between two spaces; the first pass leaves two adjacent spaces (zero width
removal happens after whitespace collapsing), the second pass collapses
them, so `normalize` is not idempotent. -/
theorem normalize_idempotent_counterexample :
    normalize (fun _ u => u) none true
        (normalize (fun _ u => u) none true
          [[(str "a", Val.vstr ['x', ' ', zwChar, ' ', 'y'])]]) ≠
      normalize (fun _ u => u) none true
        [[(str "a", Val.vstr ['x', ' ', zwChar, ' ', 'y'])]] := by
  decide

/-- Witness for the amended C5 on a concrete good record list. -/
theorem normalize_idempotent_amended_witness :
    normalize (fun _ u => u) (some (str "https://x.com/")) true
        (normalize (fun _ u => u) (some (str "https://x.com/")) true
          [[(str "name", Val.vstr (str "Alice"))]]) =
      normalize (fun _ u => u) (some (str "https://x.com/")) true
        [[(str "name", Val.vstr (str "Alice"))]] := by
  apply normalize_idempotent_amended
  intro item hitem
  rw [List.mem_singleton] at hitem
  subst hitem
  refine ⟨by decide, ?_⟩
  intro kv hkv
  rw [List.mem_singleton] at hkv
  subst hkv
  exact GoodVal.strv _ (by decide) (by decide)
    (fun h => absurd h (by decide))

end WebScraper
